import Mathlib

/-!
# Save points and their holders (`toonz/sources/include/tools/inputmanager.h`)

A shallow embedding of `TInputSavePoint` and `TInputSavePoint::Holder`, and of the modifier
chain and stage arrays of `TInputManager`.

* A save point is a heap object with two `int` counters and a flag.  The counters are
  modelled by `Int`; they only ever move by one per holder operation, so the wrap-around of
  a 32-bit `int` is out of reach of any run considered here.
* Pointers are addresses (`Nat`) into a heap; `NULL` is `none`.  `new` takes the next unused
  address, `delete this` empties the slot.  Calling a member function through a pointer to a
  slot that holds no object has no defined behaviour in the source; the model returns `none`.
* The private member calls `hold/release/lock/unlock` made by a `Holder` member function are
  recorded, in program order, next to the heap they act on.
-/

/-- The class `TInputSavePoint`: its two private counters and its public flag. -/
structure TInputSavePoint where
  m_refCount : Int
  m_lockCount : Int
  available : Bool
deriving DecidableEq, Repr

namespace TInputSavePoint

/-- The constructor `TInputSavePoint(bool available)`: both counters value-initialised. -/
def new (available : Bool) : TInputSavePoint :=
  { m_refCount := 0, m_lockCount := 0, available := available }

/-- The member `hold()`: `++m_refCount`. -/
def hold (s : TInputSavePoint) : TInputSavePoint :=
  { s with m_refCount := s.m_refCount + 1 }

/-- The member `release()`: `if ((--m_refCount) <= 0) delete this;`.
The result is `none` when the object deleted itself. -/
def release (s : TInputSavePoint) : Option TInputSavePoint :=
  let s1 := { s with m_refCount := s.m_refCount - 1 }
  if s1.m_refCount ≤ 0 then none else some s1

/-- The member `lock()`: `++m_lockCount`. -/
def lock (s : TInputSavePoint) : TInputSavePoint :=
  { s with m_lockCount := s.m_lockCount + 1 }

/-- The member `unlock()`: `--m_lockCount`. -/
def unlock (s : TInputSavePoint) : TInputSavePoint :=
  { s with m_lockCount := s.m_lockCount - 1 }

/-- The member `isFree()`: `m_lockCount <= 0`. -/
def isFree (s : TInputSavePoint) : Bool :=
  decide (s.m_lockCount ≤ 0)

end TInputSavePoint

/-- The heap of save points: slot `p` holds the object at address `p`, or nothing. -/
abbrev Heap := List (Option TInputSavePoint)

namespace Heap

/-- The object at address `p`, if there is one. -/
def get (hp : Heap) (p : Nat) : Option TInputSavePoint :=
  hp.getD p none

/-- Overwrite slot `p`. -/
def put (hp : Heap) (p : Nat) (v : Option TInputSavePoint) : Heap :=
  hp.set p v

/-- The expression `new TInputSavePoint(available)`: the new heap and the new address. -/
def alloc (hp : Heap) (available : Bool) : Heap × Nat :=
  (hp ++ [some (TInputSavePoint.new available)], hp.length)

end Heap

/-- A call of one of the four private members of the save point at an address. -/
inductive Call where
  | hold (p : Nat)
  | release (p : Nat)
  | lock (p : Nat)
  | unlock (p : Nat)
deriving DecidableEq, Repr

namespace Call

/-- The address the call goes to. -/
def target : Call → Nat
  | hold p => p
  | release p => p
  | lock p => p
  | unlock p => p

/-- What the call does to the object it is made on. -/
def apply : Call → TInputSavePoint → Option TInputSavePoint
  | hold _, s => some s.hold
  | release _, s => s.release
  | lock _, s => some s.lock
  | unlock _, s => some s.unlock

/-- Run the call on a heap; `none` when there is no object at the address. -/
def run (c : Call) (hp : Heap) : Option Heap :=
  match hp.get c.target with
  | none => none
  | some s => some (hp.put c.target (c.apply s))

end Call

/-- The class `TInputSavePoint::Holder`: a pointer and a lock flag. -/
structure TInputSavePoint.Holder where
  m_savePoint : Option Nat
  m_lock : Bool
deriving DecidableEq, Repr

/-- A `Holder` member function in progress: the holder itself, the heap, and the private
member calls made on save points so far. -/
structure TInputSavePoint.Holder.Run where
  self : TInputSavePoint.Holder
  heap : Heap
  calls : List Call
deriving DecidableEq, Repr

namespace TInputSavePoint.Holder

namespace Run

/-- Make one private member call. -/
def call (r : Run) (c : Call) : Option Run :=
  match c.run r.heap with
  | none => none
  | some hp => some { r with heap := hp, calls := r.calls ++ [c] }

end Run

/-- The member `Holder::set(TInputSavePoint *savePoint, bool lock)`, branch by branch.
In the first branch the last call, `savePoint->lock()`, goes through the parameter, which
by then equals `m_savePoint`. -/
def set (r : Run) (savePoint : Option Nat) (lock : Bool) : Option Run :=
  if r.self.m_savePoint ≠ savePoint then do
    let r1 ← match r.self.m_savePoint with
      | some p => do
        let r0 ← if r.self.m_lock then r.call (Call.unlock p) else pure r
        r0.call (Call.release p)
      | none => pure r
    let r2 : Run := { r1 with self := { m_savePoint := savePoint, m_lock := lock } }
    match r2.self.m_savePoint with
    | some p => do
      let r3 ← r2.call (Call.hold p)
      if r3.self.m_lock then
        match savePoint with
        | some q => r3.call (Call.lock q)
        | none => none
      else pure r3
    | none => pure r2
  else if r.self.m_lock ≠ lock then do
    let r1 ← match r.self.m_savePoint with
      | some p => if lock then r.call (Call.lock p) else r.call (Call.unlock p)
      | none => pure r
    pure { r1 with self := { r1.self with m_lock := lock } }
  else pure r

/-- The member `reset()`: `set(NULL, false)`. -/
def reset (r : Run) : Option Run := set r none false

/-- The member `setLock(bool lock)`: `set(m_savePoint, lock)`. -/
def setLock (r : Run) (lock : Bool) : Option Run := set r r.self.m_savePoint lock

/-- The member `lock()`: `setLock(true)`. -/
def lock (r : Run) : Option Run := setLock r true

/-- The member `unlock()`: `setLock(false)`. -/
def unlock (r : Run) : Option Run := setLock r false

/-- The constructor `Holder(TInputSavePoint *savePoint = NULL, bool lock = true)`:
both members value-initialised, then `set(savePoint, lock)`. -/
def construct (hp : Heap) (savePoint : Option Nat) (lock : Bool) : Option Run :=
  set { self := { m_savePoint := none, m_lock := false }, heap := hp, calls := [] }
    savePoint lock

/-- The assignment `operator=(const Holder &other)`: `set(other.m_savePoint, other.m_lock)`. -/
def assign (r : Run) (other : Holder) : Option Run :=
  set r other.m_savePoint other.m_lock

/-- The copy constructor `Holder(const Holder &other)`: both members value-initialised,
then `*this = other`. -/
def copy (hp : Heap) (other : Holder) : Option Run :=
  assign { self := { m_savePoint := none, m_lock := false }, heap := hp, calls := [] } other

/-- The destructor `~Holder()`: `reset()`; the holder is gone afterwards, so only the heap
and the calls remain. -/
def destroy (r : Run) : Option (Heap × List Call) :=
  (reset r).map fun r1 => (r1.heap, r1.calls)

/-- The member `savePoint()`. -/
def savePoint (h : Holder) : Option Nat := h.m_savePoint

/-- The member `assigned()`: the pointer converted to `bool`. -/
def assigned (h : Holder) : Bool := h.savePoint.isSome

/-- The member `locked()`: `m_savePoint && m_lock`. -/
def locked (h : Holder) : Bool := h.m_savePoint.isSome && h.m_lock

/-- The member `available()`: `m_savePoint && m_savePoint->available`. -/
def available (h : Holder) (hp : Heap) : Option Bool :=
  match h.m_savePoint with
  | none => some false
  | some p => (hp.get p).map fun s => s.available

/-- The member `isFree()`: `!m_savePoint || m_savePoint->isFree()`. -/
def isFree (h : Holder) (hp : Heap) : Option Bool :=
  match h.m_savePoint with
  | none => some true
  | some p => (hp.get p).map fun s => s.isFree

end TInputSavePoint.Holder

namespace TInputSavePoint

/-- The static member `create(bool available = false)`:
`return Holder(new TInputSavePoint(available));`. -/
def create (hp : Heap) (available : Bool) : Option Holder.Run :=
  let a := hp.alloc available
  Holder.construct a.1 (some a.2) true

end TInputSavePoint

open TInputSavePoint in
/-- The program state between two holder operations: the heap of save points, the holders
(slot `h` is holder number `h`, empty once it is destroyed), and the private member calls
made so far, each with the number of the holder that made it. -/
structure State where
  heap : Heap
  holders : List (Option Holder)
  log : List (Nat × Call)
deriving DecidableEq, Repr

/-- The operations a program performs on holders and save points. A new holder takes the
next unused holder number. -/
inductive Op where
  /-- The expression `new TInputSavePoint(available)`, kept as a raw pointer. -/
  | newSavePoint (available : Bool)
  /-- The declaration `Holder h = TInputSavePoint::create(available);`. -/
  | create (available : Bool)
  /-- The declaration `Holder h(savePoint, lock);`. -/
  | construct (savePoint : Option Nat) (lock : Bool)
  /-- The declaration `Holder h(other);`. -/
  | copy (other : Nat)
  /-- The statement `h = other;`. -/
  | assign (h other : Nat)
  /-- The statement `h.set(savePoint, lock);`. -/
  | set (h : Nat) (savePoint : Option Nat) (lock : Bool)
  /-- The statement `h.setLock(lock);`. -/
  | setLock (h : Nat) (lock : Bool)
  /-- The statement `h.lock();`. -/
  | lock (h : Nat)
  /-- The statement `h.unlock();`. -/
  | unlock (h : Nat)
  /-- The statement `h.reset();`. -/
  | reset (h : Nat)
  /-- The end of the lifetime of `h`. -/
  | destroy (h : Nat)
deriving DecidableEq, Repr

namespace State

open TInputSavePoint

/-- No save points, no holders. -/
def empty : State := { heap := [], holders := [], log := [] }

/-- Holder number `h`, if it is alive. -/
def holder (st : State) (h : Nat) : Option Holder :=
  st.holders.getD h none

/-- The state after a member function of the living holder `h` has run. -/
def finish (st : State) (h : Nat) (r : Holder.Run) : State :=
  { heap := r.heap
    holders := st.holders.set h (some r.self)
    log := st.log ++ r.calls.map (Prod.mk h) }

/-- The state after a constructor has run: the new holder takes the next number. -/
def add (st : State) (r : Holder.Run) : State :=
  { heap := r.heap
    holders := st.holders ++ [some r.self]
    log := st.log ++ r.calls.map (Prod.mk st.holders.length) }

/-- Run a member function on the living holder `h`. -/
def member (st : State) (h : Nat) (f : Holder.Run → Option Holder.Run) : Option State :=
  match st.holder h with
  | none => none
  | some self => (f { self := self, heap := st.heap, calls := [] }).map (st.finish h)

/-- One operation; `none` when it has no defined behaviour (a dead holder is used, or a
member is called through a pointer to no object). -/
def step (st : State) : Op → Option State
  | Op.newSavePoint available => some { st with heap := (st.heap.alloc available).1 }
  | Op.create available => (TInputSavePoint.create st.heap available).map st.add
  | Op.construct savePoint lock => (Holder.construct st.heap savePoint lock).map st.add
  | Op.copy other =>
    match st.holder other with
    | none => none
    | some o => (Holder.copy st.heap o).map st.add
  | Op.assign h other =>
    match st.holder other with
    | none => none
    | some o => st.member h fun r => Holder.assign r o
  | Op.set h savePoint lock => st.member h fun r => Holder.set r savePoint lock
  | Op.setLock h lock => st.member h fun r => Holder.setLock r lock
  | Op.lock h => st.member h Holder.lock
  | Op.unlock h => st.member h Holder.unlock
  | Op.reset h => st.member h Holder.reset
  | Op.destroy h =>
    match st.holder h with
    | none => none
    | some self =>
      (Holder.destroy { self := self, heap := st.heap, calls := [] }).map fun x =>
        { heap := x.1
          holders := st.holders.set h none
          log := st.log ++ x.2.map (Prod.mk h) }

/-- A sequence of operations, one after the other. -/
def run (st : State) : List Op → Option State
  | [] => some st
  | op :: ops => (st.step op).bind fun st1 => st1.run ops

/-- Whether a slot holds a living holder whose `savePoint()` is the address `p`. -/
def refersTo (p : Nat) : Option Holder → Bool
  | some h => decide (h.savePoint = some p)
  | none => false

/-- Whether a slot holds a living holder whose `savePoint()` is the address `p` and for
which `locked()` is true. -/
def locksAt (p : Nat) : Option Holder → Bool
  | some h => decide (h.savePoint = some p) && h.locked
  | none => false

/-- The number of living holders whose `savePoint()` is the address `p`. -/
def refHolders (st : State) (p : Nat) : Nat :=
  st.holders.countP (refersTo p)

/-- The number of living holders whose `savePoint()` is the address `p` and for which
`locked()` is true. -/
def lockHolders (st : State) (p : Nat) : Nat :=
  st.holders.countP (locksAt p)

/-- The counting discipline: every save point on the heap has a reference count equal to
the number of living holders that point to it and a lock count equal to the number of those
that are locked, and no living holder points to an address without an object. -/
def Counted (st : State) : Prop :=
  ∀ x, match st.heap.get x with
    | some s => s.m_refCount = st.refHolders x ∧ s.m_lockCount = st.lockHolders x
    | none => st.refHolders x = 0

end State

/-! ## The modifier chain and the stage arrays of `TInputManager` -/

/-- The class `TInputManager`, as far as its modifier chain and its stage arrays go: the
members `m_modifiers`, `m_tracks` and `m_hovers`. The types `TInputModifierP`, `TTrackList`
and `THoverList` are declared outside this header and are parameters here. The other
members are read or written by none of the functions below. -/
structure TInputManager (TInputModifierP TTrackList THoverList : Type) where
  m_modifiers : List TInputModifierP
  m_tracks : List TTrackList
  m_hovers : List THoverList
deriving DecidableEq, Repr

namespace TInputManager

/-- The member `getInputTracks()`: `m_tracks.front()`; no value on an empty vector. -/
def getInputTracks {M T H : Type} (m : TInputManager M T H) : Option T :=
  m.m_tracks.head?

/-- The member `getOutputTracks()`: `m_tracks.back()`; no value on an empty vector. -/
def getOutputTracks {M T H : Type} (m : TInputManager M T H) : Option T :=
  m.m_tracks.getLast?

/-- The member `getInputHovers()`: `m_hovers.front()`; no value on an empty vector. -/
def getInputHovers {M T H : Type} (m : TInputManager M T H) : Option H :=
  m.m_hovers.head?

/-- The member `getOutputHovers()`: `m_hovers.back()`; no value on an empty vector. -/
def getOutputHovers {M T H : Type} (m : TInputManager M T H) : Option H :=
  m.m_hovers.getLast?

/-- The member `getModifiersCount()`: `(int)m_modifiers.size()`. -/
def getModifiersCount {M T H : Type} (m : TInputManager M T H) : Int :=
  (m.m_modifiers.length : Int)

/-- Modelled from the spec: the constructor `TInputManager()`, declared in the header with
its body elsewhere. The spec has stage arrays `tracks[0..N]`, `hovers[0..N]` with `N` the
number of modifiers; a new manager has no modifier, hence one track stage and one hover
stage, each default-constructed. -/
def new {M T H : Type} [Inhabited T] [Inhabited H] : TInputManager M T H :=
  { m_modifiers := [], m_tracks := [default], m_hovers := [default] }

/-- Modelled from the spec: the member `insertModifier(int index, const TInputModifierP
&modifier)`, declared in the header with its body elsewhere. The spec: it "grows every
stage array by one slot, binds the modifier to this manager, then calls
`onSetManager()`/`activate()`"; an out-of-range index is a violated precondition. Modifier
`k` produces stage `k + 1`, so the new slot is stage `index + 1`, default-constructed.
Binding and the callbacks touch none of the three members. No result when the index is out
of range or a stage array is too short for the insertion. -/
def insertModifier {M T H : Type} [Inhabited T] [Inhabited H] (m : TInputManager M T H)
    (index : Int) (modifier : M) : Option (TInputManager M T H) :=
  if 0 ≤ index ∧ index ≤ m.getModifiersCount ∧
      index.toNat + 1 ≤ m.m_tracks.length ∧ index.toNat + 1 ≤ m.m_hovers.length then
    some { m_modifiers := m.m_modifiers.insertIdx index.toNat modifier
           m_tracks := m.m_tracks.insertIdx (index.toNat + 1) default
           m_hovers := m.m_hovers.insertIdx (index.toNat + 1) default }
  else none

/-- The member `addModifier(const TInputModifierP &modifier)`:
`insertModifier(getModifiersCount(), modifier)`. -/
def addModifier {M T H : Type} [Inhabited T] [Inhabited H] (m : TInputManager M T H)
    (modifier : M) : Option (TInputManager M T H) :=
  m.insertModifier m.getModifiersCount modifier

/-- Modelled from the spec: the member `removeModifier(int index)`, declared in the header
with its body elsewhere. The spec: it "calls `deactivate()`, detaches, shrinks arrays"; an
out-of-range index is a violated precondition. The slot taken away is the stage modifier
`index` produced, stage `index + 1`. No result when the index is out of range or a stage
array has no such slot. -/
def removeModifier {M T H : Type} (m : TInputManager M T H) (index : Int) :
    Option (TInputManager M T H) :=
  if 0 ≤ index ∧ index < m.getModifiersCount ∧
      index.toNat + 1 < m.m_tracks.length ∧ index.toNat + 1 < m.m_hovers.length then
    some { m_modifiers := m.m_modifiers.eraseIdx index.toNat
           m_tracks := m.m_tracks.eraseIdx (index.toNat + 1)
           m_hovers := m.m_hovers.eraseIdx (index.toNat + 1) }
  else none

/-- Modelled from the spec: the loop of `clearModifiers()`, whose body is not in the header:
remove modifier `n - 1`, then `n - 2`, down to `0`, each as `removeModifier` does. -/
def clearLoop {M T H : Type} : Nat → TInputManager M T H → Option (TInputManager M T H)
  | 0, m => some m
  | n + 1, m => (m.removeModifier (n : Int)).bind fun m1 => clearLoop n m1

/-- Modelled from the spec: the member `clearModifiers()`, declared in the header with its
body elsewhere. The spec names it among the chain mutations and says no more of it than
that the stage-count invariant holds after every mutation; it is taken to remove every
modifier, the last one first, each as `removeModifier` does. -/
def clearModifiers {M T H : Type} (m : TInputManager M T H) : Option (TInputManager M T H) :=
  clearLoop m.m_modifiers.length m

/-- The calls that change the modifier chain. -/
inductive Op (M : Type) where
  | insertModifier (index : Int) (modifier : M)
  | addModifier (modifier : M)
  | removeModifier (index : Int)
  | clearModifiers
deriving DecidableEq, Repr

/-- One call on the manager. -/
def step {M T H : Type} [Inhabited T] [Inhabited H] (m : TInputManager M T H) :
    Op M → Option (TInputManager M T H)
  | Op.insertModifier index modifier => m.insertModifier index modifier
  | Op.addModifier modifier => m.addModifier modifier
  | Op.removeModifier index => m.removeModifier index
  | Op.clearModifiers => m.clearModifiers

/-- A sequence of calls, one after the other. -/
def run {M T H : Type} [Inhabited T] [Inhabited H] (m : TInputManager M T H) :
    List (Op M) → Option (TInputManager M T H)
  | [] => some m
  | op :: ops => (m.step op).bind fun m1 => m1.run ops

/-- The stage-array invariant: one track stage and one hover stage more than modifiers. -/
def StagesMatch {M T H : Type} (m : TInputManager M T H) : Prop :=
  m.m_tracks.length = m.m_modifiers.length + 1 ∧ m.m_hovers.length = m.m_modifiers.length + 1

end TInputManager

/-! ## Bookkeeping used to state and prove the properties -/

namespace Call

/-- Run a list of calls in order. -/
def runAll : List Call → Heap → Option Heap
  | [], hp => some hp
  | c :: cs, hp => (c.run hp).bind fun hp1 => runAll cs hp1

/-- The change a call makes to the reference count of the object at `x`. -/
def refOn (x : Nat) : Call → Int
  | hold p => if p = x then 1 else 0
  | release p => if p = x then -1 else 0
  | lock _ => 0
  | unlock _ => 0

/-- The change a call makes to the lock count of the object at `x`. -/
def lockOn (x : Nat) : Call → Int
  | hold _ => 0
  | release _ => 0
  | lock p => if p = x then 1 else 0
  | unlock p => if p = x then -1 else 0

/-- The total change a list of calls makes to the reference count of the object at `x`. -/
def refSum (cs : List Call) (x : Nat) : Int := (cs.map (refOn x)).sum

/-- The total change a list of calls makes to the lock count of the object at `x`. -/
def lockSum (cs : List Call) (x : Nat) : Int := (cs.map (lockOn x)).sum

end Call

namespace TInputSavePoint.Holder

/-- The private member calls that `set(savePoint, lock)` makes, read off its three branches. -/
def setCalls (h : Holder) (savePoint : Option Nat) (lock : Bool) : List Call :=
  if h.m_savePoint ≠ savePoint then
    (match h.m_savePoint with
      | some p => (if h.m_lock then [Call.unlock p] else []) ++ [Call.release p]
      | none => []) ++
    (match savePoint with
      | some q => Call.hold q :: (if lock then [Call.lock q] else [])
      | none => [])
  else if h.m_lock ≠ lock then
    match savePoint with
    | some p => [if lock then Call.lock p else Call.unlock p]
    | none => []
  else []

end TInputSavePoint.Holder

/-- What one operation does, seen from outside: holder `h` made the calls `cs` on the heap
`hp0`, and the number of holders pointing to (and locking) each address moved by the same
amount as the calls moved the counters there. -/
structure State.Effect (st st1 : State) (h : Nat) (cs : List Call) (hp0 : Heap) : Prop where
  heap_eq : Call.runAll cs hp0 = some st1.heap
  log_eq : st1.log = st.log ++ cs.map (Prod.mk h)
  ref_eq : ∀ x, (st1.refHolders x : Int) = st.refHolders x + Call.refSum cs x
  lock_eq : ∀ x, (st1.lockHolders x : Int) = st.lockHolders x + Call.lockSum cs x

namespace Call

/-- What a list of calls does to the object at `x`, seen from that object alone. -/
def applyAt (x : Nat) : List Call → Option TInputSavePoint → Option TInputSavePoint
  | [], o => o
  | c :: cs, o => applyAt x cs (if c.target = x then o.bind c.apply else o)

/-- The references a list of calls acquires (`hold`) less those it gives back (`release`),
on whatever save point. -/
def held (cs : List Call) : Int :=
  (cs.map fun c =>
    match c with
    | hold _ => (1 : Int)
    | release _ => -1
    | lock _ => 0
    | unlock _ => 0).sum

end Call

/-- Holder number `h` as an operation finds it: the living holder, or, for a number not in
use, the value-initialised members a constructor starts from. -/
def State.view (st : State) (h : Nat) : TInputSavePoint.Holder :=
  (st.holder h).getD { m_savePoint := none, m_lock := false }

/-- The calls made so far by holder number `h`, in the order they were made. -/
def State.callsOf (st : State) (h : Nat) : List Call :=
  (st.log.filter fun e => decide (e.1 = h)).map Prod.snd

/-- Every holder number has, on every address, acquired one reference more than it gave
back if it points there now and as many otherwise, and likewise one lock more than it
gave back if it points there and is locked. -/
def State.Balanced (st : State) : Prop :=
  ∀ h p,
    Call.refSum (st.callsOf h) p = (if (st.view h).m_savePoint = some p then 1 else 0) ∧
    Call.lockSum (st.callsOf h) p =
      (if (st.view h).m_savePoint = some p ∧ (st.view h).m_lock = true then 1 else 0)

/-! ## The heap -/

namespace Heap

theorem get_put_self {hp : Heap} {p : Nat} (v : Option TInputSavePoint) (h : p < hp.length) :
    (hp.put p v).get p = v := by
  simp [get, put, List.getD_eq_getElem?_getD, h]

theorem get_put_of_ne {hp : Heap} {p x : Nat} (v : Option TInputSavePoint) (h : x ≠ p) :
    (hp.put p v).get x = hp.get x := by
  simp [get, put, List.getD_eq_getElem?_getD, List.getElem?_set_ne (Ne.symm h)]

theorem lt_length_of_get {hp : Heap} {p : Nat} {s : TInputSavePoint} (h : hp.get p = some s) :
    p < hp.length := by
  by_contra hc
  simp [get, List.getD_eq_getElem?_getD, List.getElem?_eq_none (not_lt.mp hc)] at h

theorem get_of_length_le {hp : Heap} {p : Nat} (h : hp.length ≤ p) : hp.get p = none := by
  simp [get, List.getD_eq_getElem?_getD, List.getElem?_eq_none h]

theorem get_alloc (hp : Heap) (a : Bool) (x : Nat) :
    (hp.alloc a).1.get x =
      if x = hp.length then some (TInputSavePoint.new a) else hp.get x := by
  simp only [alloc, get, List.getD_eq_getElem?_getD]
  rcases Nat.lt_trichotomy x hp.length with h | h | h
  · simp [List.getElem?_append_left h, Nat.ne_of_lt h]
  · subst h; simp
  · have h1 : hp.length ≤ x := Nat.le_of_lt h
    have h2 : (hp ++ [some (TInputSavePoint.new a)]).length ≤ x := by simp; omega
    simp [List.getElem?_eq_none h1, List.getElem?_eq_none h2, Nat.ne_of_gt h]

end Heap

namespace Call

theorem run_eq_some {c : Call} {hp hp1 : Heap} (h : c.run hp = some hp1) :
    ∃ s, hp.get c.target = some s ∧ hp1 = hp.put c.target (c.apply s) := by
  unfold run at h
  cases hs : hp.get c.target with
  | none => simp [hs] at h
  | some s => simp [hs] at h; exact ⟨s, rfl, h.symm⟩

theorem get_run_of_ne {c : Call} {hp hp1 : Heap} (h : c.run hp = some hp1) {x : Nat}
    (hx : x ≠ c.target) : hp1.get x = hp.get x := by
  obtain ⟨s, _, rfl⟩ := run_eq_some h
  exact Heap.get_put_of_ne _ hx

theorem get_run_self {c : Call} {hp hp1 : Heap} (h : c.run hp = some hp1) {s : TInputSavePoint}
    (hs : hp.get c.target = some s) : hp1.get c.target = c.apply s := by
  obtain ⟨s1, hs1, rfl⟩ := run_eq_some h
  rw [hs] at hs1
  cases hs1
  exact Heap.get_put_self _ (Heap.lt_length_of_get hs)

end Call

namespace Call

theorem refOn_of_ne {c : Call} {x : Nat} (h : c.target ≠ x) : c.refOn x = 0 := by
  cases c <;> simp_all [refOn, target]

theorem lockOn_of_ne {c : Call} {x : Nat} (h : c.target ≠ x) : c.lockOn x = 0 := by
  cases c <;> simp_all [lockOn, target]

theorem refSum_nil (x : Nat) : refSum [] x = 0 := rfl

theorem lockSum_nil (x : Nat) : lockSum [] x = 0 := rfl

theorem refSum_cons (c : Call) (cs : List Call) (x : Nat) :
    refSum (c :: cs) x = c.refOn x + refSum cs x := by
  simp [refSum]

theorem lockSum_cons (c : Call) (cs : List Call) (x : Nat) :
    lockSum (c :: cs) x = c.lockOn x + lockSum cs x := by
  simp [lockSum]

theorem refSum_append (cs ds : List Call) (x : Nat) :
    refSum (cs ++ ds) x = refSum cs x + refSum ds x := by
  simp [refSum]

theorem lockSum_append (cs ds : List Call) (x : Nat) :
    lockSum (cs ++ ds) x = lockSum cs x + lockSum ds x := by
  simp [lockSum]

theorem refSum_of_no_target {cs : List Call} {x : Nat} (h : ∀ c ∈ cs, c.target ≠ x) :
    refSum cs x = 0 := by
  induction cs with
  | nil => rfl
  | cons c cs ih =>
    rw [refSum_cons, refOn_of_ne (h c (List.mem_cons_self _ _)),
      ih fun d hd => h d (List.mem_cons_of_mem _ hd)]
    rfl

theorem lockSum_of_no_target {cs : List Call} {x : Nat} (h : ∀ c ∈ cs, c.target ≠ x) :
    lockSum cs x = 0 := by
  induction cs with
  | nil => rfl
  | cons c cs ih =>
    rw [lockSum_cons, lockOn_of_ne (h c (List.mem_cons_self _ _)),
      ih fun d hd => h d (List.mem_cons_of_mem _ hd)]
    rfl

/-- What a successful call does to the object it is made on, in terms of the two sums. -/
theorem apply_eq (c : Call) (s : TInputSavePoint) :
    c.apply s =
      if c = release c.target ∧ s.m_refCount - 1 ≤ 0 then none
      else some { m_refCount := s.m_refCount + c.refOn c.target
                  m_lockCount := s.m_lockCount + c.lockOn c.target
                  available := s.available } := by
  cases c with
  | hold p => simp [apply, target, refOn, lockOn, TInputSavePoint.hold]
  | release p =>
    simp only [apply, target, refOn, lockOn, TInputSavePoint.release, true_and, if_true]
    split <;> simp [sub_eq_add_neg]
  | lock p => simp [apply, target, refOn, lockOn, TInputSavePoint.lock]
  | unlock p => simp [apply, target, refOn, lockOn, TInputSavePoint.unlock, sub_eq_add_neg]

theorem runAll_nil (hp : Heap) : runAll [] hp = some hp := rfl

theorem runAll_cons (c : Call) (cs : List Call) (hp : Heap) :
    runAll (c :: cs) hp = (c.run hp).bind fun hp1 => runAll cs hp1 := rfl

theorem runAll_append (cs ds : List Call) (hp : Heap) :
    runAll (cs ++ ds) hp = (runAll cs hp).bind fun hp1 => runAll ds hp1 := by
  induction cs generalizing hp with
  | nil => simp [runAll]
  | cons c cs ih =>
    simp only [List.cons_append, runAll_cons]
    cases c.run hp with
    | none => rfl
    | some hp1 => simpa using ih hp1

/-- Calls never reach an address that holds no object, and never put one there. -/
theorem runAll_get_none {cs : List Call} {hp hp1 : Heap} (h : runAll cs hp = some hp1)
    {x : Nat} (hx : hp.get x = none) :
    hp1.get x = none ∧ ∀ c ∈ cs, c.target ≠ x := by
  induction cs generalizing hp with
  | nil =>
    simp only [runAll_nil, Option.some.injEq] at h
    subst h
    exact ⟨hx, by simp⟩
  | cons c cs ih =>
    rw [runAll_cons] at h
    cases hc : c.run hp with
    | none => simp [hc] at h
    | some hp2 =>
      simp only [hc, Option.some_bind] at h
      have hne : c.target ≠ x := by
        intro heq
        obtain ⟨s, hs, _⟩ := run_eq_some hc
        rw [heq, hx] at hs
        cases hs
      have h2 : hp2.get x = none := by rw [get_run_of_ne hc (Ne.symm hne), hx]
      obtain ⟨h3, h4⟩ := ih h h2
      refine ⟨h3, ?_⟩
      intro d hd
      rcases List.mem_cons.mp hd with rfl | hd
      · exact hne
      · exact h4 d hd

/-- The object at `x` after a run of calls: either it is still there, with its counters
moved by the two sums, or a `release` deleted it when its reference count came down to
zero or less. -/
theorem runAll_get_some {cs : List Call} {hp hp1 : Heap} (h : runAll cs hp = some hp1)
    {x : Nat} {s : TInputSavePoint} (hx : hp.get x = some s) :
    (hp1.get x = some { m_refCount := s.m_refCount + refSum cs x
                        m_lockCount := s.m_lockCount + lockSum cs x
                        available := s.available }) ∨
    (hp1.get x = none ∧ s.m_refCount + refSum cs x ≤ 0 ∧ release x ∈ cs) := by
  induction cs generalizing hp s with
  | nil =>
    simp only [runAll_nil, Option.some.injEq] at h
    subst h
    left
    simp [hx, refSum_nil, lockSum_nil]
  | cons c cs ih =>
    rw [runAll_cons] at h
    cases hc : c.run hp with
    | none => simp [hc] at h
    | some hp2 =>
      simp only [hc, Option.some_bind] at h
      by_cases hne : c.target = x
      · subst hne
        have h2 := get_run_self hc hx
        rw [apply_eq] at h2
        split at h2
        · rename_i hdel
          obtain ⟨h3, h4⟩ := runAll_get_none h h2
          right
          refine ⟨h3, ?_, ?_⟩
          · rw [refSum_cons, refSum_of_no_target h4, hdel.1]
            simp only [refOn, target, if_true]
            omega
          · rw [← hdel.1]
            exact List.mem_cons_self _ _
        · rcases ih h h2 with h3 | ⟨h3, h4, h5⟩
          · left
            rw [h3, refSum_cons, lockSum_cons]
            simp only [add_assoc]
          · right
            refine ⟨h3, ?_, List.mem_cons_of_mem _ h5⟩
            rw [refSum_cons]
            simp only [add_assoc] at h4
            exact h4
      · have h2 : hp2.get x = some s := by rw [get_run_of_ne hc (Ne.symm hne), hx]
        rcases ih h h2 with h3 | ⟨h3, h4, h5⟩
        · left
          rw [h3, refSum_cons, lockSum_cons, refOn_of_ne hne, lockOn_of_ne hne]
          simp
        · right
          refine ⟨h3, ?_, List.mem_cons_of_mem _ h5⟩
          rw [refSum_cons, refOn_of_ne hne]
          simpa using h4

end Call

namespace TInputSavePoint.Holder

theorem Run.call_eq (r : Run) (c : Call) :
    r.call c = (c.run r.heap).map fun hp => { r with heap := hp, calls := r.calls ++ [c] } := by
  unfold Run.call
  cases c.run r.heap <;> rfl

/-- The member `set` runs the calls of `setCalls` on the heap, in that order, and leaves the
holder with the pointer and the flag it was given. -/
theorem set_eq (r : Run) (savePoint : Option Nat) (lock : Bool) :
    set r savePoint lock =
      (Call.runAll (setCalls r.self savePoint lock) r.heap).map fun hp =>
        { self := { m_savePoint := savePoint, m_lock := lock }
          heap := hp
          calls := r.calls ++ setCalls r.self savePoint lock } := by
  obtain ⟨⟨sp, l0⟩, hp, cs⟩ := r
  cases sp <;> cases savePoint <;> cases l0 <;> cases lock <;>
    simp [set, setCalls, Run.call_eq, Call.runAll, Option.bind_eq_bind, Option.pure_def,
      Option.map_eq_bind, Option.bind_assoc, Function.comp_def]
  all_goals
    split_ifs with h
    · subst h
      simp [Call.runAll]
    · simp [Call.runAll, Option.bind_assoc]

end TInputSavePoint.Holder

namespace TInputSavePoint.Holder

/-- The calls of `set` move the reference count at `x` up by one when the new pointer is
`x` and down by one when the old pointer is `x`. -/
theorem refSum_setCalls (h : Holder) (savePoint : Option Nat) (lock : Bool) (x : Nat) :
    Call.refSum (setCalls h savePoint lock) x =
      (if savePoint = some x then 1 else 0) - (if h.m_savePoint = some x then 1 else 0) := by
  obtain ⟨sp, l0⟩ := h
  cases sp <;> cases savePoint <;> cases l0 <;> cases lock <;>
    simp [setCalls, Call.refSum, Call.refOn]
  all_goals split_ifs <;> simp_all [Call.refOn]

end TInputSavePoint.Holder

namespace TInputSavePoint.Holder

/-- The calls of `set` move the lock count at `x` up by one when the new pointer is `x` and
the new flag is set, and down by one when the old pointer is `x` and the old flag was set. -/
theorem lockSum_setCalls (h : Holder) (savePoint : Option Nat) (lock : Bool) (x : Nat) :
    Call.lockSum (setCalls h savePoint lock) x =
      (if savePoint = some x ∧ lock = true then 1 else 0) -
        (if h.m_savePoint = some x ∧ h.m_lock = true then 1 else 0) := by
  obtain ⟨sp, l0⟩ := h
  cases sp <;> cases savePoint <;> cases l0 <;> cases lock <;>
    simp [setCalls, Call.lockSum, Call.lockOn]
  all_goals split_ifs <;> simp_all [Call.lockOn]

end TInputSavePoint.Holder

/-! ## Counting holders -/

theorem List.countP_set_int {α : Type} (P : α → Bool) (l : List α) (i : Nat) (a : α)
    (h : i < l.length) :
    ((List.countP P (l.set i a) : Nat) : Int) =
      List.countP P l - (if P l[i] = true then 1 else 0) + (if P a = true then 1 else 0) := by
  rw [List.countP_set P l i a h]
  have hpos : P l[i] = true → 0 < List.countP P l := fun hp =>
    List.countP_pos_iff.mpr ⟨l[i], List.getElem_mem h, hp⟩
  split_ifs with h1 h2 h2
  · have := hpos h1
    omega
  · have := hpos h1
    omega
  · omega
  · omega

namespace State

open TInputSavePoint

theorem holder_eq_some {st : State} {h : Nat} {ho : Holder} (hh : st.holder h = some ho) :
    ∃ hlt : h < st.holders.length, st.holders[h] = some ho := by
  unfold holder at hh
  by_cases hlt : h < st.holders.length
  · refine ⟨hlt, ?_⟩
    simpa [List.getD_eq_getElem?_getD, List.getElem?_eq_getElem hlt] using hh
  · simp [List.getD_eq_getElem?_getD, List.getElem?_eq_none (not_lt.mp hlt)] at hh

theorem refersTo_some (x : Nat) (h : Holder) :
    (refersTo x (some h) = true) ↔ h.m_savePoint = some x := by
  simp [refersTo, Holder.savePoint]

theorem locksAt_some (x : Nat) (h : Holder) :
    (locksAt x (some h) = true) ↔ (h.m_savePoint = some x ∧ h.m_lock = true) := by
  simp only [locksAt, Holder.savePoint, Holder.locked, Bool.and_eq_true, decide_eq_true_eq]
  constructor
  · rintro ⟨h1, -, h3⟩
    exact ⟨h1, h3⟩
  · rintro ⟨h1, h3⟩
    exact ⟨h1, by simp [h1], h3⟩

theorem refersTo_none (x : Nat) : refersTo x none = false := rfl

theorem locksAt_none (x : Nat) : locksAt x none = false := rfl

end State

namespace State

open TInputSavePoint

theorem lockHolders_le_refHolders (st : State) (x : Nat) :
    st.lockHolders x ≤ st.refHolders x := by
  unfold lockHolders refHolders
  apply List.countP_mono_left
  intro o _ ho
  cases o with
  | none => simp [locksAt] at ho
  | some h => exact (refersTo_some x h).mpr ((locksAt_some x h).mp ho).1

/-- A member function that ends in `set` on the living holder `h`. -/
theorem finish_effect {st : State} {h : Nat} {ho : Holder} (hh : st.holder h = some ho)
    {savePoint : Option Nat} {lock : Bool} {r : Holder.Run}
    (hr : Holder.set { self := ho, heap := st.heap, calls := [] } savePoint lock = some r) :
    r.self = { m_savePoint := savePoint, m_lock := lock } ∧
      Effect st (st.finish h r) h (Holder.setCalls ho savePoint lock) st.heap := by
  rw [Holder.set_eq] at hr
  cases hrun : Call.runAll (Holder.setCalls ho savePoint lock) st.heap with
  | none => simp [hrun] at hr
  | some hp1 =>
    simp only [hrun, Option.map_some', Option.some.injEq, List.nil_append] at hr
    subst hr
    obtain ⟨hlt, hget⟩ := holder_eq_some hh
    refine ⟨rfl, ⟨hrun, rfl, ?_, ?_⟩⟩
    · intro x
      simp only [finish, refHolders]
      rw [List.countP_set_int _ _ _ _ hlt, hget, Holder.refSum_setCalls]
      simp only [refersTo_some]
      split_ifs <;> omega
    · intro x
      simp only [finish, lockHolders]
      rw [List.countP_set_int _ _ _ _ hlt, hget, Holder.lockSum_setCalls]
      simp only [locksAt_some]
      split_ifs <;> omega

/-- A constructor: a new holder, value-initialised, then `set`. -/
theorem add_effect (st : State) {hp0 : Heap} {savePoint : Option Nat} {lock : Bool}
    {r : Holder.Run}
    (hr : Holder.set { self := { m_savePoint := none, m_lock := false }, heap := hp0, calls := [] }
      savePoint lock = some r) :
    r.self = { m_savePoint := savePoint, m_lock := lock } ∧
      Effect st (st.add r) st.holders.length
        (Holder.setCalls { m_savePoint := none, m_lock := false } savePoint lock) hp0 := by
  rw [Holder.set_eq] at hr
  cases hrun : Call.runAll
      (Holder.setCalls { m_savePoint := none, m_lock := false } savePoint lock) hp0 with
  | none => simp [hrun] at hr
  | some hp1 =>
    simp only [hrun, Option.map_some', Option.some.injEq, List.nil_append] at hr
    subst hr
    refine ⟨rfl, ⟨hrun, rfl, ?_, ?_⟩⟩
    · intro x
      simp only [add, refHolders, List.countP_append, List.countP_cons, List.countP_nil,
        Holder.refSum_setCalls, refersTo_some]
      split_ifs <;> simp_all
    · intro x
      simp only [add, lockHolders, List.countP_append, List.countP_cons, List.countP_nil,
        Holder.lockSum_setCalls, locksAt_some]
      split_ifs <;> simp_all

/-- The destructor: `set(NULL, false)`, then the holder is gone. -/
theorem destroy_effect {st : State} {h : Nat} {ho : Holder} (hh : st.holder h = some ho)
    {x : Heap × List Call}
    (hr : Holder.destroy { self := ho, heap := st.heap, calls := [] } = some x) :
    Effect st { heap := x.1, holders := st.holders.set h none,
                log := st.log ++ x.2.map (Prod.mk h) }
      h (Holder.setCalls ho none false) st.heap := by
  unfold Holder.destroy Holder.reset at hr
  rw [Holder.set_eq] at hr
  cases hrun : Call.runAll (Holder.setCalls ho none false) st.heap with
  | none => simp [hrun] at hr
  | some hp1 =>
    simp only [hrun, Option.map_some', Option.some.injEq, List.nil_append] at hr
    subst hr
    obtain ⟨hlt, hget⟩ := holder_eq_some hh
    refine ⟨hrun, rfl, ?_, ?_⟩
    · intro x
      simp only [refHolders]
      rw [List.countP_set_int _ _ _ _ hlt, hget, Holder.refSum_setCalls]
      simp only [refersTo_some, refersTo_none, Bool.false_eq_true, if_false, reduceCtorEq]
      split_ifs <;> omega
    · intro x
      simp only [lockHolders]
      rw [List.countP_set_int _ _ _ _ hlt, hget, Holder.lockSum_setCalls]
      simp only [locksAt_some, locksAt_none, Bool.false_eq_true, if_false, reduceCtorEq,
        false_and]
      split_ifs <;> omega

end State

namespace State

open TInputSavePoint

theorem member_eq_some {st st1 : State} {h : Nat} {f : Holder.Run → Option Holder.Run}
    (hm : st.member h f = some st1) :
    ∃ ho r, st.holder h = some ho ∧
      f { self := ho, heap := st.heap, calls := [] } = some r ∧ st1 = st.finish h r := by
  unfold member at hm
  cases hh : st.holder h with
  | none => simp [hh] at hm
  | some ho =>
    simp only [hh] at hm
    cases hf : f { self := ho, heap := st.heap, calls := [] } with
    | none => simp [hf] at hm
    | some r =>
      simp only [hf, Option.map_some', Option.some.injEq] at hm
      exact ⟨ho, r, rfl, hf, hm.symm⟩

/-- Every operation is one of four shapes: a bare allocation, a constructor (on the heap
as it is, or on the heap after `create` has allocated), a `set` on a living holder, or a
destructor. -/
theorem step_cases {st st1 : State} {op : Op} (hs : st.step op = some st1) :
    (∃ a, op = Op.newSavePoint a ∧ st1 = { st with heap := (st.heap.alloc a).1 }) ∨
    (∃ hp0 savePoint lock r,
      (hp0 = st.heap ∨ ∃ a, op = Op.create a ∧ hp0 = (st.heap.alloc a).1) ∧
      Holder.set { self := { m_savePoint := none, m_lock := false }, heap := hp0, calls := [] }
        savePoint lock = some r ∧ st1 = st.add r) ∨
    (∃ h ho savePoint lock r, st.holder h = some ho ∧
      Holder.set { self := ho, heap := st.heap, calls := [] } savePoint lock = some r ∧
      st1 = st.finish h r) ∨
    (∃ h ho x, op = Op.destroy h ∧ st.holder h = some ho ∧
      Holder.destroy { self := ho, heap := st.heap, calls := [] } = some x ∧
      st1 = { heap := x.1, holders := st.holders.set h none,
              log := st.log ++ x.2.map (Prod.mk h) }) := by
  cases op with
  | newSavePoint a =>
    left
    simp only [step, Option.some.injEq] at hs
    exact ⟨a, rfl, hs.symm⟩
  | create a =>
    right; left
    simp only [step, TInputSavePoint.create, Holder.construct] at hs
    obtain ⟨r, hr, h2⟩ := Option.map_eq_some'.mp hs
    exact ⟨_, _, _, r, Or.inr ⟨a, rfl, rfl⟩, hr, h2.symm⟩
  | construct q l =>
    right; left
    simp only [step, Holder.construct] at hs
    obtain ⟨r, hr, h2⟩ := Option.map_eq_some'.mp hs
    exact ⟨_, _, _, r, Or.inl rfl, hr, h2.symm⟩
  | copy o =>
    right; left
    simp only [step] at hs
    cases ho : st.holder o with
    | none => simp [ho] at hs
    | some other =>
      simp only [ho, Holder.copy, Holder.assign] at hs
      obtain ⟨r, hr, h2⟩ := Option.map_eq_some'.mp hs
      exact ⟨_, _, _, r, Or.inl rfl, hr, h2.symm⟩
  | assign h o =>
    right; right; left
    simp only [step] at hs
    cases ho : st.holder o with
    | none => simp [ho] at hs
    | some other =>
      simp only [ho] at hs
      obtain ⟨hd, r, h1, h2, h3⟩ := member_eq_some hs
      exact ⟨h, hd, _, _, r, h1, h2, h3⟩
  | set h q l =>
    right; right; left
    simp only [step] at hs
    obtain ⟨hd, r, h1, h2, h3⟩ := member_eq_some hs
    exact ⟨h, hd, _, _, r, h1, h2, h3⟩
  | setLock h l =>
    right; right; left
    simp only [step] at hs
    obtain ⟨hd, r, h1, h2, h3⟩ := member_eq_some hs
    exact ⟨h, hd, _, _, r, h1, h2, h3⟩
  | lock h =>
    right; right; left
    simp only [step] at hs
    obtain ⟨hd, r, h1, h2, h3⟩ := member_eq_some hs
    exact ⟨h, hd, _, _, r, h1, h2, h3⟩
  | unlock h =>
    right; right; left
    simp only [step] at hs
    obtain ⟨hd, r, h1, h2, h3⟩ := member_eq_some hs
    exact ⟨h, hd, _, _, r, h1, h2, h3⟩
  | reset h =>
    right; right; left
    simp only [step] at hs
    obtain ⟨hd, r, h1, h2, h3⟩ := member_eq_some hs
    exact ⟨h, hd, _, _, r, h1, h2, h3⟩
  | destroy h =>
    right; right; right
    simp only [step] at hs
    cases hh : st.holder h with
    | none => simp [hh] at hs
    | some ho =>
      simp only [hh] at hs
      cases hx : Holder.destroy { self := ho, heap := st.heap, calls := [] } with
      | none => simp [hx] at hs
      | some x =>
        simp only [hx, Option.map_some', Option.some.injEq] at hs
        exact ⟨h, ho, x, rfl, hh, hx, hs.symm⟩

/-- Every operation has an effect in the sense of `Effect`, on the heap as it was or on the
heap with one freshly allocated save point. -/
theorem step_effect {st st1 : State} {op : Op} (hs : st.step op = some st1) :
    ∃ h cs hp0, (hp0 = st.heap ∨ ∃ a, hp0 = (st.heap.alloc a).1) ∧ Effect st st1 h cs hp0 := by
  rcases step_cases hs with ⟨a, -, rfl⟩ | ⟨hp0, q, l, r, h0, hr, rfl⟩ |
      ⟨h, ho, q, l, r, hh, hr, rfl⟩ | ⟨h, ho, x, -, hh, hx, rfl⟩
  · refine ⟨0, [], _, Or.inr ⟨a, rfl⟩, ⟨rfl, by simp, ?_, ?_⟩⟩
    · intro x
      simp [refHolders, Call.refSum_nil]
    · intro x
      simp [lockHolders, Call.lockSum_nil]
  · refine ⟨_, _, hp0, ?_, (add_effect st hr).2⟩
    rcases h0 with h0 | ⟨a, -, h0⟩
    · exact Or.inl h0
    · exact Or.inr ⟨a, h0⟩
  · exact ⟨h, _, _, Or.inl rfl, (finish_effect hh hr).2⟩
  · exact ⟨h, _, _, Or.inl rfl, destroy_effect hh hx⟩

/-- An `Effect` on a counted state leaves a counted state. -/
theorem Effect.counted {st st1 : State} {h : Nat} {cs : List Call} {hp0 : Heap}
    (he : Effect st st1 h cs hp0) (hc : st.Counted)
    (h0 : hp0 = st.heap ∨ ∃ a, hp0 = (st.heap.alloc a).1) : st1.Counted := by
  have hc0 : ∀ x, match hp0.get x with
      | some s => s.m_refCount = st.refHolders x ∧ s.m_lockCount = st.lockHolders x
      | none => st.refHolders x = 0 := by
    rcases h0 with rfl | ⟨a, rfl⟩
    · exact hc
    · intro x
      rw [Heap.get_alloc]
      split_ifs with hx
      · subst hx
        have h1 := hc st.heap.length
        rw [Heap.get_of_length_le (le_refl _)] at h1
        have h2 := st.lockHolders_le_refHolders st.heap.length
        simp only [TInputSavePoint.new]
        constructor
        · simp [h1]
        · have : st.lockHolders st.heap.length = 0 := by omega
          simp [this]
      · exact hc x
  intro x
  have h1 := hc0 x
  cases hx : hp0.get x with
  | none =>
    rw [hx] at h1
    obtain ⟨h2, h3⟩ := Call.runAll_get_none he.heap_eq hx
    rw [h2]
    have h4 := he.ref_eq x
    rw [Call.refSum_of_no_target h3] at h4
    simp only [h1, Nat.cast_zero, add_zero] at h4
    exact_mod_cast h4
  | some s =>
    rw [hx] at h1
    have h4 := he.ref_eq x
    have h5 := he.lock_eq x
    rcases Call.runAll_get_some he.heap_eq hx with h2 | ⟨h2, h3, -⟩
    · rw [h2]
      constructor
      · show s.m_refCount + Call.refSum cs x = _
        rw [h4, h1.1]
      · show s.m_lockCount + Call.lockSum cs x = _
        rw [h5, h1.2]
    · rw [h2]
      show st1.refHolders x = 0
      rw [h1.1] at h3
      omega

theorem step_counted {st st1 : State} {op : Op} (hs : st.step op = some st1)
    (hc : st.Counted) : st1.Counted := by
  obtain ⟨h, cs, hp0, h0, he⟩ := step_effect hs
  exact he.counted hc h0

theorem empty_counted : State.empty.Counted := by
  intro x
  simp [State.empty, Heap.get, refHolders]

theorem run_counted {st st1 : State} {ops : List Op} (hr : st.run ops = some st1)
    (hc : st.Counted) : st1.Counted := by
  induction ops generalizing st with
  | nil =>
    simp only [run, Option.some.injEq] at hr
    exact hr ▸ hc
  | cons op ops ih =>
    simp only [run] at hr
    cases hs : st.step op with
    | none => simp [hs] at hr
    | some st2 =>
      simp only [hs, Option.some_bind] at hr
      exact ih hr (step_counted hs hc)

end State

namespace Call

theorem run_eq (c : Call) (hp : Heap) :
    c.run hp = (hp.get c.target).map fun s => hp.put c.target (c.apply s) := by
  unfold run
  cases hp.get c.target <;> rfl

theorem run_of_get {c : Call} {hp : Heap} {s : TInputSavePoint}
    (h : hp.get c.target = some s) : c.run hp = some (hp.put c.target (c.apply s)) := by
  rw [run_eq, h]
  rfl

end Call

namespace State

theorem run_nil (st : State) : st.run [] = some st := rfl

theorem run_cons (st : State) (op : Op) (ops : List Op) :
    st.run (op :: ops) = (st.step op).bind fun st1 => st1.run ops := rfl

theorem run_append (st : State) (pre post : List Op) :
    st.run (pre ++ post) = (st.run pre).bind fun st1 => st1.run post := by
  induction pre generalizing st with
  | nil => simp [run_nil]
  | cons op pre ih =>
    simp only [List.cons_append, run_cons]
    cases st.step op with
    | none => rfl
    | some st2 => simpa using ih st2

end State


namespace Heap

theorem length_put (hp : Heap) (p : Nat) (v : Option TInputSavePoint) :
    (hp.put p v).length = hp.length := by
  simp [put]

theorem length_alloc (hp : Heap) (a : Bool) : (hp.alloc a).1.length = hp.length + 1 := by
  simp [alloc]

theorem get_alloc_new (hp : Heap) (a : Bool) :
    (hp.alloc a).1.get (hp.alloc a).2 = some (TInputSavePoint.new a) := by
  rw [get_alloc]
  simp [alloc]

end Heap

namespace TInputSavePoint

/-- The result of `create`, written out. -/
theorem create_eq (hp : Heap) (a : Bool) :
    create hp a = some
      { self := { m_savePoint := some hp.length, m_lock := true }
        heap := (((hp.alloc a).1.put hp.length (some (TInputSavePoint.new a).hold)).put
          hp.length (some (TInputSavePoint.new a).hold.lock))
        calls := [Call.hold hp.length, Call.lock hp.length] } := by
  have hnew := Heap.get_alloc_new hp a
  have hlt := Heap.lt_length_of_get hnew
  have h1 : (Call.hold hp.length).run (hp.alloc a).1 =
      some ((hp.alloc a).1.put hp.length (some (TInputSavePoint.new a).hold)) :=
    Call.run_of_get hnew
  have hget1 : ((hp.alloc a).1.put hp.length (some (TInputSavePoint.new a).hold)).get
      hp.length = some (TInputSavePoint.new a).hold := Heap.get_put_self _ hlt
  have h2 : (Call.lock hp.length).run
      ((hp.alloc a).1.put hp.length (some (TInputSavePoint.new a).hold)) = _ :=
    Call.run_of_get hget1
  unfold create Holder.construct
  rw [Holder.set_eq]
  have hcalls : Holder.setCalls { m_savePoint := none, m_lock := false }
      (some (hp.alloc a).2) true = [Call.hold hp.length, Call.lock hp.length] := by
    simp [Holder.setCalls, Heap.alloc]
  rw [hcalls]
  simp only [Call.runAll, h1, h2, Option.some_bind, Option.map_some', List.nil_append]
  rfl

end TInputSavePoint

namespace Heap

theorem get_put (hp : Heap) (p x : Nat) (v : Option TInputSavePoint) :
    (hp.put p v).get x = if x = p ∧ p < hp.length then v else hp.get x := by
  by_cases hx : x = p
  · subst hx
    by_cases hlt : x < hp.length
    · simp [hlt, get_put_self v hlt]
    · have h1 : (hp.put x v).length ≤ x := by
        rw [length_put]
        exact not_lt.mp hlt
      simp [hlt, get_of_length_le h1, get_of_length_le (not_lt.mp hlt)]
  · simp [hx, get_put_of_ne v hx]

end Heap

namespace TInputSavePoint.Holder

/-- The member `set` has defined behaviour whenever the holder's own pointer and the new
pointer are each null or the address of an object. -/
theorem set_isSome (r : Run) (savePoint : Option Nat) (lock : Bool)
    (hself : ∀ p, r.self.m_savePoint = some p → (r.heap.get p).isSome = true)
    (harg : ∀ q, savePoint = some q → (r.heap.get q).isSome = true) :
    (set r savePoint lock).isSome = true := by
  rw [set_eq]
  obtain ⟨⟨sp, l0⟩, hp, cs⟩ := r
  simp only [Option.isSome_map']
  cases sp with
  | none =>
    cases savePoint with
    | none => cases l0 <;> cases lock <;> simp [setCalls, Call.runAll]
    | some b =>
      obtain ⟨t, ht⟩ := Option.isSome_iff_exists.mp (harg b rfl)
      have hb := Heap.lt_length_of_get ht
      cases l0 <;> cases lock <;>
        simp [setCalls, Call.runAll, Call.run_eq, Call.target, Call.apply, ht, hb,
          Heap.get_put, Heap.length_put]
  | some a =>
    obtain ⟨s, hs⟩ := Option.isSome_iff_exists.mp (hself a rfl)
    have ha := Heap.lt_length_of_get hs
    cases savePoint with
    | none =>
      cases l0 <;> cases lock <;>
        simp [setCalls, Call.runAll, Call.run_eq, Call.target, Call.apply, hs, ha,
          Heap.get_put, Heap.length_put]
    | some b =>
      obtain ⟨t, ht⟩ := Option.isSome_iff_exists.mp (harg b rfl)
      have hb := Heap.lt_length_of_get ht
      by_cases hab : a = b
      · subst hab
        cases l0 <;> cases lock <;>
          simp [setCalls, Call.runAll, Call.run_eq, Call.target, Call.apply, hs, ha,
            Heap.get_put, Heap.length_put]
      · have hba : ¬ b = a := fun h => hab h.symm
        cases l0 <;> cases lock <;>
          simp [setCalls, Call.runAll, Call.run_eq, Call.target, Call.apply, hs, ha, ht, hb,
            hab, hba, Heap.get_put, Heap.length_put]

end TInputSavePoint.Holder

namespace Call

/-- After a run of calls the object at `x` is what the calls made on `x` leave of it. -/
theorem runAll_get {cs : List Call} {hp hp1 : Heap} (h : runAll cs hp = some hp1) (x : Nat) :
    hp1.get x = applyAt x cs (hp.get x) := by
  induction cs generalizing hp with
  | nil =>
    simp only [runAll_nil, Option.some.injEq] at h
    subst h
    rfl
  | cons c cs ih =>
    rw [runAll_cons] at h
    cases hc : c.run hp with
    | none => simp [hc] at h
    | some hp2 =>
      simp only [hc, Option.some_bind] at h
      rw [ih h]
      simp only [applyAt]
      by_cases hx : c.target = x
      · obtain ⟨s, hs, -⟩ := run_eq_some hc
        rw [if_pos hx, ← hx, get_run_self hc hs, hs]
        rfl
      · rw [if_neg hx, get_run_of_ne hc (Ne.symm hx)]

end Call

namespace TInputSavePoint.Holder

/-- The result of `set` on living pointers, written out. -/
theorem set_some (r : Run) (savePoint : Option Nat) (lock : Bool)
    (hself : ∀ p, r.self.m_savePoint = some p → (r.heap.get p).isSome = true)
    (harg : ∀ q, savePoint = some q → (r.heap.get q).isSome = true) :
    ∃ hp1, set r savePoint lock = some
        { self := { m_savePoint := savePoint, m_lock := lock }
          heap := hp1
          calls := r.calls ++ setCalls r.self savePoint lock } ∧
      Call.runAll (setCalls r.self savePoint lock) r.heap = some hp1 ∧
      ∀ x, hp1.get x = Call.applyAt x (setCalls r.self savePoint lock) (r.heap.get x) := by
  have h1 := set_isSome r savePoint lock hself harg
  rw [set_eq] at h1 ⊢
  cases hrun : Call.runAll (setCalls r.self savePoint lock) r.heap with
  | none => simp [hrun] at h1
  | some hp1 => exact ⟨hp1, rfl, rfl, Call.runAll_get hrun⟩

end TInputSavePoint.Holder

namespace State

open TInputSavePoint

theorem holder_of_length_le {st : State} {h : Nat} (hle : st.holders.length ≤ h) :
    st.holder h = none := by
  simp [holder, List.getD_eq_getElem?_getD, List.getElem?_eq_none hle]

theorem holder_finish_self {st : State} {h : Nat} (r : Holder.Run)
    (hlt : h < st.holders.length) : (st.finish h r).holder h = some r.self := by
  simp [holder, finish, List.getD_eq_getElem?_getD, hlt]

theorem holder_finish_of_ne {st : State} {h k : Nat} (r : Holder.Run) (hk : k ≠ h) :
    (st.finish h r).holder k = st.holder k := by
  simp [holder, finish, List.getD_eq_getElem?_getD, List.getElem?_set_ne (Ne.symm hk)]

theorem holder_add_self (st : State) (r : Holder.Run) :
    (st.add r).holder st.holders.length = some r.self := by
  simp [holder, add, List.getD_eq_getElem?_getD]

theorem holder_add_of_ne {st : State} {k : Nat} (r : Holder.Run)
    (hk : k ≠ st.holders.length) : (st.add r).holder k = st.holder k := by
  simp only [holder, add, List.getD_eq_getElem?_getD]
  rcases Nat.lt_or_gt_of_ne hk with h | h
  · rw [List.getElem?_append_left h]
  · have h1 : st.holders.length ≤ k := Nat.le_of_lt h
    have h2 : (st.holders ++ [some r.self]).length ≤ k := by simp; omega
    rw [List.getElem?_eq_none h1, List.getElem?_eq_none h2]

theorem view_of_holder {st : State} {h : Nat} {ho : Holder} (hh : st.holder h = some ho) :
    st.view h = ho := by
  simp [view, hh]

theorem view_of_length_le {st : State} {h : Nat} (hle : st.holders.length ≤ h) :
    st.view h = { m_savePoint := none, m_lock := false } := by
  simp [view, holder_of_length_le hle]

theorem view_savePoint_eq_some {st : State} {h p : Nat} :
    (st.view h).m_savePoint = some p ↔
      ∃ ho, st.holder h = some ho ∧ ho.savePoint = some p := by
  unfold view
  cases hh : st.holder h with
  | none => simp
  | some ho => simp [Holder.savePoint]

/-- Every operation is a `set(savePoint, lock)` on one holder number `h`, as `view` finds
it, run on the heap as it was or on the heap with one fresh save point; afterwards holder
`h`, if it lives, points to `savePoint`. -/
theorem step_shape {st st1 : State} {op : Op} (hs : st.step op = some st1) :
    ∃ h savePoint lock hp0,
      (hp0 = st.heap ∨ ∃ a, hp0 = (st.heap.alloc a).1) ∧
      Effect st st1 h (Holder.setCalls (st.view h) savePoint lock) hp0 ∧
      (st1.holder h).bind Holder.savePoint = savePoint ∧
      (∀ k, k ≠ h → st1.holder k = st.holder k) ∧
      st1.view h = { m_savePoint := savePoint, m_lock := lock } := by
  rcases step_cases hs with ⟨a, -, rfl⟩ | ⟨hp0, q, l, r, h0, hr, rfl⟩ |
      ⟨h, ho, q, l, r, hh, hr, rfl⟩ | ⟨h, ho, x, -, hh, hx, rfl⟩
  · refine ⟨st.holders.length, none, false, _, Or.inr ⟨a, rfl⟩, ?_, ?_, fun k _ => rfl,
      @view_of_length_le { st with heap := (st.heap.alloc a).1 } _ (le_refl _)⟩
    · rw [view_of_length_le (le_refl _)]
      refine ⟨rfl, by simp [Holder.setCalls], ?_, ?_⟩
      · intro x
        simp [refHolders, Holder.setCalls, Call.refSum_nil]
      · intro x
        simp [lockHolders, Holder.setCalls, Call.lockSum_nil]
    · have hn := @holder_of_length_le { st with heap := (st.heap.alloc a).1 } _ (le_refl _)
      simp [hn]
  · obtain ⟨h1, h2⟩ := add_effect st hr
    refine ⟨st.holders.length, q, l, hp0, ?_, ?_, ?_, fun k hk => holder_add_of_ne r hk,
      h1 ▸ view_of_holder (holder_add_self st r)⟩
    · rcases h0 with h0 | ⟨a, -, h0⟩
      · exact Or.inl h0
      · exact Or.inr ⟨a, h0⟩
    · rw [view_of_length_le (le_refl _)]
      exact h2
    · rw [holder_add_self, h1]
      rfl
  · obtain ⟨h1, h2⟩ := finish_effect hh hr
    obtain ⟨hlt, -⟩ := holder_eq_some hh
    refine ⟨h, q, l, st.heap, Or.inl rfl, ?_, ?_, fun k hk => holder_finish_of_ne r hk,
      h1 ▸ view_of_holder (holder_finish_self r hlt)⟩
    · rw [view_of_holder hh]
      exact h2
    · rw [holder_finish_self r hlt, h1]
      rfl
  · obtain ⟨hlt, -⟩ := holder_eq_some hh
    refine ⟨h, none, false, st.heap, Or.inl rfl, ?_, ?_, ?_, ?_⟩
    · rw [view_of_holder hh]
      exact destroy_effect hh hx
    · simp [holder, List.getD_eq_getElem?_getD, hlt]
    · intro k hk
      simp [holder, List.getD_eq_getElem?_getD, List.getElem?_set_ne (Ne.symm hk)]
    · simp [view, holder, List.getD_eq_getElem?_getD, hlt]

end State

namespace TInputSavePoint.Holder

theorem release_mem_setCalls (h : Holder) (savePoint : Option Nat) (lock : Bool) (p : Nat) :
    Call.release p ∈ setCalls h savePoint lock ↔
      h.m_savePoint = some p ∧ savePoint ≠ some p := by
  obtain ⟨sp, l0⟩ := h
  cases sp <;> cases savePoint <;> cases l0 <;> cases lock <;> simp [setCalls]
  all_goals
    first
    | exact eq_comm
    | (split_ifs with h
       · subst h
         simp
       · simp only [List.mem_cons, Call.release.injEq, reduceCtorEq, List.mem_singleton,
           List.not_mem_nil, or_false, false_or]
         constructor
         · rintro rfl
           exact ⟨rfl, fun h2 => h h2.symm⟩
         · rintro ⟨rfl, -⟩
           rfl)
    | (constructor
       · rintro ⟨h1, rfl⟩
         exact ⟨rfl, fun h2 => h1 h2.symm⟩
       · rintro ⟨rfl, h2⟩
         exact ⟨fun h3 => h2 h3.symm, rfl⟩)

end TInputSavePoint.Holder

namespace TInputSavePoint.Holder

/-- What `set` leaves of the object the holder pointed to, when it is given another
pointer: one lock less if the holder was locked, one reference less, and nothing at all
if no reference is left. -/
theorem applyAt_setCalls_old (l : Bool) (savePoint : Option Nat) (lock : Bool) (a : Nat)
    (s : TInputSavePoint) (hne : savePoint ≠ some a) :
    Call.applyAt a (setCalls { m_savePoint := some a, m_lock := l } savePoint lock) (some s) =
      if s.m_refCount - 1 ≤ 0 then none
      else some { m_refCount := s.m_refCount - 1
                  m_lockCount := s.m_lockCount - (if l = true then 1 else 0)
                  available := s.available } := by
  cases savePoint with
  | none =>
    cases l <;> cases lock <;>
      simp [setCalls, Call.applyAt, Call.target, Call.apply, TInputSavePoint.release,
        TInputSavePoint.unlock]
  | some b =>
    have hba : ¬ b = a := fun h => hne (by rw [h])
    have hab : ¬ a = b := fun h => hba h.symm
    cases l <;> cases lock <;>
      simp [setCalls, Call.applyAt, Call.target, Call.apply, hba, hab,
        TInputSavePoint.release, TInputSavePoint.unlock]

/-- What `set` makes of the object it is newly pointed to: one reference more, and one lock
more if the new flag is set. -/
theorem applyAt_setCalls_new (h : Holder) (lock : Bool) (b : Nat) (t : TInputSavePoint)
    (hne : h.m_savePoint ≠ some b) :
    Call.applyAt b (setCalls h (some b) lock) (some t) =
      some { m_refCount := t.m_refCount + 1
             m_lockCount := t.m_lockCount + (if lock = true then 1 else 0)
             available := t.available } := by
  obtain ⟨sp, l⟩ := h
  cases sp with
  | none =>
    cases l <;> cases lock <;>
      simp [setCalls, Call.applyAt, Call.target, Call.apply, TInputSavePoint.hold,
        TInputSavePoint.lock]
  | some a =>
    have hab : ¬ a = b := fun h => hne (by rw [h])
    have hba : ¬ b = a := fun h => hab h.symm
    cases l <;> cases lock <;>
      simp [setCalls, Call.applyAt, Call.target, Call.apply, hba, hab, TInputSavePoint.hold,
        TInputSavePoint.lock]

end TInputSavePoint.Holder

namespace State

open TInputSavePoint

theorem refHolders_pos {st : State} {h p : Nat} {ho : Holder} (hh : st.holder h = some ho)
    (hp : ho.savePoint = some p) : 0 < st.refHolders p := by
  obtain ⟨hlt, hget⟩ := holder_eq_some hh
  exact List.countP_pos_iff.mpr ⟨some ho, hget ▸ List.getElem_mem hlt, (refersTo_some p ho).mpr hp⟩

theorem get_start_of_get {st : State} {hp0 : Heap}
    (h0 : hp0 = st.heap ∨ ∃ a, hp0 = (st.heap.alloc a).1) {p : Nat} {s : TInputSavePoint}
    (hp : st.heap.get p = some s) : hp0.get p = some s := by
  rcases h0 with rfl | ⟨a, rfl⟩
  · exact hp
  · rw [Heap.get_alloc, if_neg (Nat.ne_of_lt (Heap.lt_length_of_get hp)), hp]

end State

theorem List.set_getElem_same {α : Type} (l : List α) (i : Nat) (h : i < l.length) :
    l.set i l[i] = l := by
  induction l generalizing i with
  | nil => rfl
  | cons x xs ih =>
    cases i with
    | zero => rfl
    | succ j =>
      have hj : j < xs.length := Nat.lt_of_succ_lt_succ h
      show x :: xs.set j xs[j] = x :: xs
      rw [ih j hj]

namespace State

open TInputSavePoint

/-- In a counted state every living holder points to null or to an object. -/
theorem Counted.live {st : State} (hc : st.Counted) {h p : Nat} {ho : Holder}
    (hh : st.holder h = some ho) (hp : ho.savePoint = some p) :
    (st.heap.get p).isSome = true := by
  have h1 := refHolders_pos hh hp
  have h2 := hc p
  cases hg : st.heap.get p with
  | none =>
    rw [hg] at h2
    have h3 : st.refHolders p = 0 := h2
    omega
  | some s => rfl

/-- A `set` on a living holder in a counted state, written out. -/
theorem member_set_some {st : State} (hc : st.Counted) {h : Nat} {ho : Holder}
    (hh : st.holder h = some ho) (savePoint : Option Nat) (lock : Bool)
    (harg : ∀ q, savePoint = some q → (st.heap.get q).isSome = true) :
    ∃ hp1, st.member h (fun r => Holder.set r savePoint lock) =
        some (st.finish h { self := { m_savePoint := savePoint, m_lock := lock }
                            heap := hp1
                            calls := Holder.setCalls ho savePoint lock }) ∧
      ∀ x, hp1.get x = Call.applyAt x (Holder.setCalls ho savePoint lock) (st.heap.get x) := by
  obtain ⟨hp1, hset, -, hget⟩ := Holder.set_some
    { self := ho, heap := st.heap, calls := [] } savePoint lock
    (fun p hp => hc.live hh hp) harg
  refine ⟨hp1, ?_, hget⟩
  simp only [member, hh, hset, Option.map_some', List.nil_append]

theorem finish_same (st : State) {h : Nat} {ho : Holder} (hh : st.holder h = some ho) :
    st.finish h { self := ho, heap := st.heap, calls := [] } = st := by
  obtain ⟨hlt, hget⟩ := holder_eq_some hh
  have h1 : st.holders.set h (some ho) = st.holders := by
    rw [← hget]
    exact List.set_getElem_same _ _ hlt
  simp [finish, h1]

end State

namespace Call

theorem refSum_eq_count (cs : List Call) (p : Nat) :
    refSum cs p = (cs.count (hold p) : Int) - cs.count (release p) := by
  induction cs with
  | nil => simp [refSum]
  | cons c cs ih =>
    rw [refSum_cons, ih, List.count_cons, List.count_cons]
    cases c <;> simp [refOn] <;> split_ifs <;> omega

theorem lockSum_eq_count (cs : List Call) (p : Nat) :
    lockSum cs p = (cs.count (lock p) : Int) - cs.count (unlock p) := by
  induction cs with
  | nil => simp [lockSum]
  | cons c cs ih =>
    rw [lockSum_cons, ih, List.count_cons, List.count_cons]
    cases c <;> simp [lockOn] <;> split_ifs <;> omega

end Call

namespace State

open TInputSavePoint

theorem callsOf_of_log_eq {st st1 : State} {h0 : Nat} {cs : List Call}
    (hlog : st1.log = st.log ++ cs.map (Prod.mk h0)) (h : Nat) :
    st1.callsOf h = st.callsOf h ++ (if h = h0 then cs else []) := by
  simp only [callsOf, hlog, List.filter_append, List.map_append, List.append_cancel_left_eq]
  rw [List.filter_map, List.map_map]
  by_cases hh : h = h0
  · subst hh
    rw [if_pos rfl]
    have : List.filter ((fun e : Nat × Call => decide (e.1 = h)) ∘ Prod.mk h) cs = cs := by
      apply List.filter_eq_self.mpr
      intro c _
      simp
    rw [this]
    simp [Function.comp_def]
  · rw [if_neg hh]
    have : List.filter ((fun e : Nat × Call => decide (e.1 = h)) ∘ Prod.mk h0) cs = [] := by
      apply List.filter_eq_nil_iff.mpr
      intro c _
      simp [Ne.symm hh]
    rw [this]
    rfl

theorem step_balanced {st st1 : State} {op : Op} (hs : st.step op = some st1)
    (hb : st.Balanced) : st1.Balanced := by
  obtain ⟨h0, q, l, hp0, -, he, -, hframe, hview⟩ := step_shape hs
  intro h p
  rw [callsOf_of_log_eq he.log_eq h]
  by_cases hh : h = h0
  · subst hh
    rw [if_pos rfl, Call.refSum_append, Call.lockSum_append, Holder.refSum_setCalls,
      Holder.lockSum_setCalls, (hb h p).1, (hb h p).2, hview]
    constructor
    · split_ifs <;> simp_all
    · split_ifs <;> simp_all
  · have hv : st1.view h = st.view h := by
      simp only [view, hframe h hh]
    rw [if_neg hh, List.append_nil, hv]
    exact hb h p

theorem empty_balanced : State.empty.Balanced := by
  intro h p
  simp [State.empty, callsOf, view, holder, Call.refSum, Call.lockSum]

theorem run_balanced {st st1 : State} {ops : List Op} (hr : st.run ops = some st1)
    (hb : st.Balanced) : st1.Balanced := by
  induction ops generalizing st with
  | nil =>
    simp only [run, Option.some.injEq] at hr
    exact hr ▸ hb
  | cons op ops ih =>
    simp only [run] at hr
    cases hs : st.step op with
    | none => simp [hs] at hr
    | some st2 =>
      simp only [hs, Option.some_bind] at hr
      exact ih hr (step_balanced hs hb)

end State

namespace Heap

theorem ext_get {hp hp1 : Heap} (hlen : hp.length = hp1.length)
    (h : ∀ x, hp.get x = hp1.get x) : hp = hp1 := by
  apply List.ext_getElem hlen
  intro n h1 h2
  have h3 := h n
  simpa [get, List.getD_eq_getElem?_getD, List.getElem?_eq_getElem h1,
    List.getElem?_eq_getElem h2] using h3

end Heap

namespace Call

theorem length_run {c : Call} {hp hp1 : Heap} (h : c.run hp = some hp1) :
    hp1.length = hp.length := by
  obtain ⟨s, -, rfl⟩ := run_eq_some h
  exact Heap.length_put _ _ _

theorem length_runAll {cs : List Call} {hp hp1 : Heap} (h : runAll cs hp = some hp1) :
    hp1.length = hp.length := by
  induction cs generalizing hp with
  | nil =>
    simp only [runAll_nil, Option.some.injEq] at h
    rw [h]
  | cons c cs ih =>
    rw [runAll_cons] at h
    cases hc : c.run hp with
    | none => simp [hc] at h
    | some hp2 =>
      simp only [hc, Option.some_bind] at h
      rw [ih h, length_run hc]

end Call

namespace TInputSavePoint.Holder

/-- A second `set` with the arguments of the first finds nothing to do. -/
theorem set_again (r : Run) (savePoint : Option Nat) (lock : Bool) :
    set { r with self := { m_savePoint := savePoint, m_lock := lock } } savePoint lock =
      some { r with self := { m_savePoint := savePoint, m_lock := lock } } := by
  rw [set_eq]
  have hcalls : setCalls { m_savePoint := savePoint, m_lock := lock } savePoint lock = [] := by
    simp [setCalls]
  simp only [hcalls, Call.runAll, Option.map_some', List.append_nil]

end TInputSavePoint.Holder

namespace State

open TInputSavePoint

theorem holder_mem {st : State} {ho : Holder} :
    some ho ∈ st.holders ↔ ∃ h, st.holder h = some ho := by
  constructor
  · intro hm
    obtain ⟨n, hlt, hn⟩ := List.getElem_of_mem hm
    refine ⟨n, ?_⟩
    simp [holder, List.getD_eq_getElem?_getD, List.getElem?_eq_getElem hlt, hn]
  · rintro ⟨h, hh⟩
    obtain ⟨hlt, hget⟩ := holder_eq_some hh
    exact hget ▸ List.getElem_mem hlt

theorem lockHolders_pos {st : State} {h p : Nat} {ho : Holder} (hh : st.holder h = some ho)
    (hp : ho.savePoint = some p) (hl : ho.locked = true) : 0 < st.lockHolders p := by
  refine List.countP_pos_iff.mpr ⟨some ho, holder_mem.mpr ⟨h, hh⟩, ?_⟩
  simp [locksAt, hp, hl]

theorem lockHolders_eq_zero_iff {st : State} {p : Nat} :
    st.lockHolders p = 0 ↔
      ∀ h ho, st.holder h = some ho → ho.savePoint = some p → ho.locked = false := by
  unfold lockHolders
  rw [List.countP_eq_zero]
  constructor
  · intro hall h ho hh hp
    have := hall (some ho) (holder_mem.mpr ⟨h, hh⟩)
    simpa [locksAt, hp] using this
  · intro hall o ho
    cases o with
    | none => simp [locksAt]
    | some hd =>
      obtain ⟨h, hh⟩ := holder_mem.mp ho
      intro hcon
      simp only [locksAt, Bool.and_eq_true, decide_eq_true_eq] at hcon
      have := hall h hd hh hcon.1
      rw [hcon.2] at this
      cases this

end State

/-! ## The modifier chain -/

namespace TInputManager

theorem new_stagesMatch {M T H : Type} [Inhabited T] [Inhabited H] :
    (new : TInputManager M T H).StagesMatch := by
  simp [StagesMatch, new]

theorem insertModifier_stagesMatch {M T H : Type} [Inhabited T] [Inhabited H]
    {m m1 : TInputManager M T H} {index : Int} {modifier : M} (hm : m.StagesMatch)
    (h : m.insertModifier index modifier = some m1) : m1.StagesMatch := by
  unfold insertModifier at h
  split_ifs at h with hc
  obtain ⟨h0, h1, h2, h3⟩ := hc
  simp only [Option.some.injEq] at h
  subst h
  have h4 : index.toNat ≤ m.m_modifiers.length := by
    simp only [getModifiersCount] at h1
    omega
  simp only [StagesMatch, List.length_insertIdx _ _ h4, List.length_insertIdx _ _ h2,
    List.length_insertIdx _ _ h3]
  exact ⟨by rw [hm.1], by rw [hm.2]⟩

theorem insertModifier_isSome {M T H : Type} [Inhabited T] [Inhabited H]
    {m : TInputManager M T H} (hm : m.StagesMatch) {index : Int} (modifier : M)
    (h0 : 0 ≤ index) (h1 : index ≤ m.getModifiersCount) :
    (m.insertModifier index modifier).isSome = true := by
  have h4 : index.toNat ≤ m.m_modifiers.length := by
    simp only [getModifiersCount] at h1
    omega
  have hc : 0 ≤ index ∧ index ≤ m.getModifiersCount ∧
      index.toNat + 1 ≤ m.m_tracks.length ∧ index.toNat + 1 ≤ m.m_hovers.length :=
    ⟨h0, h1, by rw [hm.1]; omega, by rw [hm.2]; omega⟩
  simp only [insertModifier, if_pos hc, Option.isSome_some]

theorem removeModifier_stagesMatch {M T H : Type} {m m1 : TInputManager M T H} {index : Int}
    (hm : m.StagesMatch) (h : m.removeModifier index = some m1) :
    m1.StagesMatch ∧ m1.m_modifiers.length + 1 = m.m_modifiers.length := by
  unfold removeModifier at h
  split_ifs at h with hc
  obtain ⟨h0, h1, h2, h3⟩ := hc
  simp only [Option.some.injEq] at h
  subst h
  have h4 : index.toNat < m.m_modifiers.length := by
    simp only [getModifiersCount] at h1
    omega
  simp only [StagesMatch, List.length_eraseIdx, if_pos h4, if_pos h2, if_pos h3]
  have := hm.1
  have := hm.2
  omega

theorem removeModifier_isSome {M T H : Type} {m : TInputManager M T H} (hm : m.StagesMatch)
    {index : Int} (h0 : 0 ≤ index) (h1 : index < m.getModifiersCount) :
    (m.removeModifier index).isSome = true := by
  have h4 : index.toNat < m.m_modifiers.length := by
    simp only [getModifiersCount] at h1
    omega
  have hc : 0 ≤ index ∧ index < m.getModifiersCount ∧
      index.toNat + 1 < m.m_tracks.length ∧ index.toNat + 1 < m.m_hovers.length :=
    ⟨h0, h1, by rw [hm.1]; omega, by rw [hm.2]; omega⟩
  simp only [removeModifier, if_pos hc, Option.isSome_some]

/-- The loop of `clearModifiers`, started at the number of modifiers, runs to the end and
leaves no modifier and one stage of each kind. -/
theorem clearLoop_spec {M T H : Type} (n : Nat) (m : TInputManager M T H) (hm : m.StagesMatch)
    (hn : m.m_modifiers.length = n) :
    ∃ m1, clearLoop n m = some m1 ∧ m1.StagesMatch ∧ m1.m_modifiers.length = 0 := by
  induction n generalizing m with
  | zero => exact ⟨m, rfl, hm, hn⟩
  | succ n ih =>
    have h1 : ((n : Nat) : Int) < m.getModifiersCount := by
      simp only [getModifiersCount, hn]
      omega
    have h2 := removeModifier_isSome hm (Int.natCast_nonneg n) h1
    obtain ⟨m2, hm2⟩ := Option.isSome_iff_exists.mp h2
    obtain ⟨h3, h4⟩ := removeModifier_stagesMatch hm hm2
    obtain ⟨m1, h5, h6, h7⟩ := ih m2 h3 (by omega)
    refine ⟨m1, ?_, h6, h7⟩
    simp only [clearLoop, hm2, Option.some_bind, h5]

theorem step_stagesMatch {M T H : Type} [Inhabited T] [Inhabited H]
    {m m1 : TInputManager M T H} {op : Op M} (hm : m.StagesMatch)
    (h : m.step op = some m1) : m1.StagesMatch := by
  cases op with
  | insertModifier index modifier => exact insertModifier_stagesMatch hm h
  | addModifier modifier => exact insertModifier_stagesMatch hm h
  | removeModifier index => exact (removeModifier_stagesMatch hm h).1
  | clearModifiers =>
    obtain ⟨m2, h1, h2, -⟩ := clearLoop_spec m.m_modifiers.length m hm rfl
    have h3 : clearLoop m.m_modifiers.length m = some m1 := h
    rw [h1] at h3
    cases h3
    exact h2

theorem chain_run_append {M T H : Type} [Inhabited T] [Inhabited H]
    (m : TInputManager M T H) (pre post : List (Op M)) :
    m.run (pre ++ post) = (m.run pre).bind fun m1 => m1.run post := by
  induction pre generalizing m with
  | nil => simp [run]
  | cons op pre ih =>
    simp only [List.cons_append, run]
    cases m.step op with
    | none => rfl
    | some m2 => simpa using ih m2

theorem run_stagesMatch {M T H : Type} [Inhabited T] [Inhabited H]
    {m m1 : TInputManager M T H} {ops : List (Op M)} (hm : m.StagesMatch)
    (h : m.run ops = some m1) : m1.StagesMatch := by
  induction ops generalizing m with
  | nil =>
    simp only [run, Option.some.injEq] at h
    exact h ▸ hm
  | cons op ops ih =>
    simp only [run] at h
    cases hs : m.step op with
    | none => simp [hs] at h
    | some m2 =>
      simp only [hs, Option.some_bind] at h
      exact ih (step_stagesMatch hm hs) h

end TInputManager

/-! ## The claims -/

/-- C1. Start with no holders and no save points and perform any finite sequence of
operations (construction, `create`, copy construction, assignment, `set`, `setLock`, `lock`,
`unlock`, `reset`, destruction; also a bare `new TInputSavePoint`). Cut the sequence at any
point, into the operations done so far (`pre`) and those still to come (`post`). If the
whole sequence has defined behaviour, then the state at the cut exists, and in it the
`m_refCount` of every save point on the heap equals the number of living holders whose
`savePoint()` is that save point. -/
theorem C1_refCount_eq_referencing_holders (pre post : List Op)
    (hrun : (State.empty.run (pre ++ post)).isSome = true) :
    ∃ st, State.empty.run pre = some st ∧
      ∀ p s, st.heap.get p = some s → s.m_refCount = (st.refHolders p : Int) := by
  rw [State.run_append] at hrun
  cases hpre : State.empty.run pre with
  | none => simp [hpre] at hrun
  | some st =>
    refine ⟨st, rfl, ?_⟩
    intro p s hp
    have hc := State.run_counted hpre State.empty_counted p
    rw [hp] at hc
    exact hc.1

/-- C1, at a concrete run: three holders come to share the save point made by `create` and
one of them is unlocked (the cut); later one is reset and one destroyed. -/
theorem C1_refCount_eq_referencing_holders_witness :
    (State.empty.run ([Op.create true, Op.copy 0, Op.construct none true, Op.assign 2 0,
        Op.unlock 1] ++ [Op.reset 0, Op.destroy 1])).isSome = true ∧
    ∃ st, State.empty.run [Op.create true, Op.copy 0, Op.construct none true, Op.assign 2 0,
        Op.unlock 1] = some st ∧
      ∀ p s, st.heap.get p = some s → s.m_refCount = (st.refHolders p : Int) :=
  ⟨by decide, C1_refCount_eq_referencing_holders
    [Op.create true, Op.copy 0, Op.construct none true, Op.assign 2 0, Op.unlock 1]
    [Op.reset 0, Op.destroy 1] (by decide)⟩

/-- C2. For every boolean `a` (and every heap), `TInputSavePoint::create(a)` returns a
holder that owns one reference and holds a lock: it made exactly the calls `hold` and `lock`
on the new save point, it is `assigned()` and `locked()`, its save point has
`m_refCount = 1`, `m_lockCount = 1` and `available = a`, so `available()` is `a` and
`isFree()` is false. -/
theorem C2_create_holds_and_locks (hp : Heap) (a : Bool) :
    ∃ r p, TInputSavePoint.create hp a = some r ∧
      r.self.savePoint = some p ∧ hp.get p = none ∧
      r.calls = [Call.hold p, Call.lock p] ∧
      r.self.assigned = true ∧ r.self.locked = true ∧
      r.heap.get p = some { m_refCount := 1, m_lockCount := 1, available := a } ∧
      r.self.available r.heap = some a ∧ r.self.isFree r.heap = some false := by
  have hlt : hp.length < (hp.alloc a).1.length := by
    rw [Heap.length_alloc]
    exact Nat.lt_succ_self _
  have hlt2 : hp.length <
      ((hp.alloc a).1.put hp.length (some (TInputSavePoint.new a).hold)).length := by
    rw [Heap.length_put]
    exact hlt
  have hget : (((hp.alloc a).1.put hp.length (some (TInputSavePoint.new a).hold)).put
      hp.length (some (TInputSavePoint.new a).hold.lock)).get hp.length =
      some { m_refCount := 1, m_lockCount := 1, available := a } := by
    rw [Heap.get_put_self _ hlt2]
    rfl
  refine ⟨_, hp.length, TInputSavePoint.create_eq hp a, rfl,
    Heap.get_of_length_le (le_refl _), rfl, rfl, rfl, hget, ?_, ?_⟩
  · simp only [TInputSavePoint.Holder.available, hget, Option.map_some']
  · simp only [TInputSavePoint.Holder.isFree, hget, Option.map_some']
    rfl

/-- C3. `TInputSavePoint::isFree()` is true exactly when `m_lockCount ≤ 0`; and
`Holder::isFree()` returns true exactly when the holder is unset (`savePoint()` is null) or
the save point it points to has `m_lockCount ≤ 0`. It returns a value whenever the holder
is unset or points to an object. -/
theorem C3_isFree_iff (s : TInputSavePoint) (h : TInputSavePoint.Holder) (hp : Heap) :
    (s.isFree = true ↔ s.m_lockCount ≤ 0) ∧
    (h.isFree hp = some true ↔
      h.savePoint = none ∨
        ∃ p t, h.savePoint = some p ∧ hp.get p = some t ∧ t.m_lockCount ≤ 0) ∧
    ((h.isFree hp).isSome = true ↔
      h.savePoint = none ∨ ∃ p t, h.savePoint = some p ∧ hp.get p = some t) := by
  obtain ⟨sp, l⟩ := h
  refine ⟨by simp [TInputSavePoint.isFree], ?_, ?_⟩
  · cases sp with
    | none => simp [TInputSavePoint.Holder.isFree, TInputSavePoint.Holder.savePoint]
    | some p =>
      cases hg : hp.get p with
      | none => simp [TInputSavePoint.Holder.isFree, TInputSavePoint.Holder.savePoint, hg]
      | some t =>
        simp [TInputSavePoint.Holder.isFree, TInputSavePoint.Holder.savePoint, hg,
          TInputSavePoint.isFree]
  · cases sp with
    | none => simp [TInputSavePoint.Holder.isFree, TInputSavePoint.Holder.savePoint]
    | some p =>
      cases hg : hp.get p with
      | none => simp [TInputSavePoint.Holder.isFree, TInputSavePoint.Holder.savePoint, hg]
      | some t => simp [TInputSavePoint.Holder.isFree, TInputSavePoint.Holder.savePoint, hg]

/-- C4. Let a holder point to `p` (possibly null) with lock flag `l`, and let `q ≠ p`
(possibly null) and `l'` be given, the non-null ones among `p`, `q` being addresses of
objects. Then `set(q, l')` returns, the holder ends with pointer `q` and flag `l'`, and the
calls it made are, in this order: `unlock` on `p` iff `l`, one `release` on `p`, one `hold`
on `q`, `lock` on `q` iff `l'` (those on a null pointer left out). So `p` has lost exactly
one reference, and is gone if that left it with none, and has lost one lock iff `l`; `q`
has gained exactly one reference and one lock iff `l'`; and after each of the calls the
references the holder accounts for (one at the start if `p` is non-null, plus holds, less
releases) are never more than one. -/
theorem C4_set_transfers_reference_and_lock (hp : Heap) (p q : Option Nat) (l l' : Bool)
    (cs0 : List Call) (hne : q ≠ p)
    (hp_live : ∀ a, p = some a → (hp.get a).isSome = true)
    (hq_live : ∀ b, q = some b → (hp.get b).isSome = true) :
    ∃ r, TInputSavePoint.Holder.set
        { self := { m_savePoint := p, m_lock := l }, heap := hp, calls := cs0 } q l' = some r ∧
      r.self = { m_savePoint := q, m_lock := l' } ∧
      (∃ cs, r.calls = cs0 ++ cs ∧
        cs = (p.elim [] fun a => (if l = true then [Call.unlock a] else []) ++ [Call.release a]) ++
             (q.elim [] fun b => Call.hold b :: (if l' = true then [Call.lock b] else [])) ∧
        ∀ k, 0 ≤ (if p.isSome = true then 1 else 0) + Call.held (cs.take k) ∧
          (if p.isSome = true then 1 else 0) + Call.held (cs.take k) ≤ 1) ∧
      (∀ a s, p = some a → hp.get a = some s →
        r.heap.get a =
          if s.m_refCount - 1 ≤ 0 then none
          else some { m_refCount := s.m_refCount - 1
                      m_lockCount := s.m_lockCount - (if l = true then 1 else 0)
                      available := s.available }) ∧
      (∀ b t, q = some b → hp.get b = some t →
        r.heap.get b =
          some { m_refCount := t.m_refCount + 1
                 m_lockCount := t.m_lockCount + (if l' = true then 1 else 0)
                 available := t.available }) := by
  obtain ⟨hp1, hset, -, hget⟩ := TInputSavePoint.Holder.set_some
    { self := { m_savePoint := p, m_lock := l }, heap := hp, calls := cs0 } q l' hp_live hq_live
  have hne' : p ≠ q := fun h => hne h.symm
  refine ⟨_, hset, rfl, ⟨_, rfl, ?_, ?_⟩, ?_, ?_⟩
  · simp only [TInputSavePoint.Holder.setCalls, ne_eq, hne', not_false_eq_true, if_true]
    cases p <;> cases q <;> rfl
  · intro k
    simp only [TInputSavePoint.Holder.setCalls, ne_eq, hne', not_false_eq_true, if_true]
    cases p <;> cases q <;> cases l <;> cases l' <;>
      rcases k with _ | _ | _ | _ | _ | k <;> simp [Call.held]
  · intro a s hpa hs
    subst hpa
    rw [hget]
    exact hs ▸ TInputSavePoint.Holder.applyAt_setCalls_old l q l' a s hne
  · intro b t hqb ht
    subst hqb
    rw [hget]
    exact ht ▸ TInputSavePoint.Holder.applyAt_setCalls_new _ l' b t hne'

/-- C4, at a concrete input: a locked holder of the save point at address 0 (two references,
one lock) is set to the save point at address 1, locked. -/
theorem C4_set_transfers_reference_and_lock_witness :
    (some 1 : Option Nat) ≠ some 0 ∧
    (Heap.get [some { m_refCount := 2, m_lockCount := 1, available := true },
      some { m_refCount := 1, m_lockCount := 0, available := false }] 0).isSome = true ∧
    (Heap.get [some { m_refCount := 2, m_lockCount := 1, available := true },
      some { m_refCount := 1, m_lockCount := 0, available := false }] 1).isSome = true ∧
    ∃ r, TInputSavePoint.Holder.set
        { self := { m_savePoint := some 0, m_lock := true }
          heap := [some { m_refCount := 2, m_lockCount := 1, available := true },
            some { m_refCount := 1, m_lockCount := 0, available := false }]
          calls := [] } (some 1) true = some r ∧
      r.self = { m_savePoint := some 1, m_lock := true } :=
  ⟨by decide, by decide, by decide,
    (C4_set_transfers_reference_and_lock
      [some { m_refCount := 2, m_lockCount := 1, available := true },
        some { m_refCount := 1, m_lockCount := 0, available := false }]
      (some 0) (some 1) true true [] (by decide)
      (fun a h => by cases h; decide) (fun b h => by cases h; decide)).imp
      fun _ h => ⟨h.1, h.2.1⟩⟩

/-- C5. Let a holder point to the save point at address `a` with lock flag `l`. Then
`set(a, l')`, and with it `setLock(l')`, `lock()` (for `l' = true`) and `unlock()` (for
`l' = false`), returns and adjusts only the lock: it makes no call but one `lock` (when the
holder goes from unlocked to locked) or one `unlock` (from locked to unlocked), the save
point is still there with `m_refCount` and `available` unchanged and `m_lockCount` moved by
`+1`, `-1` or `0`, every other object is unchanged, and the holder still points to `a`. -/
theorem C5_set_same_target_adjusts_only_lock (hp : Heap) (a : Nat) (s : TInputSavePoint)
    (l l' : Bool) (cs0 : List Call) (hs : hp.get a = some s) :
    ∃ r, TInputSavePoint.Holder.set
        { self := { m_savePoint := some a, m_lock := l }, heap := hp, calls := cs0 }
        (some a) l' = some r ∧
      TInputSavePoint.Holder.setLock
        { self := { m_savePoint := some a, m_lock := l }, heap := hp, calls := cs0 } l' = some r ∧
      (l' = true → TInputSavePoint.Holder.lock
        { self := { m_savePoint := some a, m_lock := l }, heap := hp, calls := cs0 } = some r) ∧
      (l' = false → TInputSavePoint.Holder.unlock
        { self := { m_savePoint := some a, m_lock := l }, heap := hp, calls := cs0 } = some r) ∧
      r.self.savePoint = some a ∧ r.self.m_lock = l' ∧
      r.calls = cs0 ++
        (if l = false ∧ l' = true then [Call.lock a]
         else if l = true ∧ l' = false then [Call.unlock a] else []) ∧
      r.heap.get a =
        some { m_refCount := s.m_refCount
               m_lockCount := s.m_lockCount +
                 (if l = false ∧ l' = true then 1 else if l = true ∧ l' = false then -1 else 0)
               available := s.available } ∧
      ∀ x, x ≠ a → r.heap.get x = hp.get x := by
  have hlive : ∀ p, some a = some p → (hp.get p).isSome = true := by
    intro p h
    cases h
    simp [hs]
  obtain ⟨hp1, hset, -, hget⟩ := TInputSavePoint.Holder.set_some
    { self := { m_savePoint := some a, m_lock := l }, heap := hp, calls := cs0 } (some a) l'
    hlive hlive
  refine ⟨_, hset, hset, ?_, ?_, rfl, rfl, ?_, ?_, ?_⟩
  · intro h
    subst h
    exact hset
  · intro h
    subst h
    exact hset
  · cases l <;> cases l' <;> simp [TInputSavePoint.Holder.setCalls]
  · rw [hget]
    cases l <;> cases l' <;>
      simp [TInputSavePoint.Holder.setCalls, Call.applyAt, Call.target, Call.apply, hs,
        TInputSavePoint.lock, TInputSavePoint.unlock]
    rfl
  · intro x hx
    have hx' : ¬ a = x := fun h => hx h.symm
    rw [hget]
    cases l <;> cases l' <;>
      simp [TInputSavePoint.Holder.setCalls, Call.applyAt, Call.target, hx']

/-- C5, at a concrete input: an unlocked holder of the save point at address 0 is locked. -/
theorem C5_set_same_target_adjusts_only_lock_witness :
    Heap.get [some { m_refCount := 2, m_lockCount := 1, available := true }] 0 =
      some { m_refCount := 2, m_lockCount := 1, available := true } ∧
    ∃ r, TInputSavePoint.Holder.lock
        { self := { m_savePoint := some 0, m_lock := false }
          heap := [some { m_refCount := 2, m_lockCount := 1, available := true }]
          calls := [] } = some r ∧
      r.heap.get 0 = some { m_refCount := 2, m_lockCount := 2, available := true } :=
  ⟨by decide,
    (C5_set_same_target_adjusts_only_lock
      [some { m_refCount := 2, m_lockCount := 1, available := true }] 0
      { m_refCount := 2, m_lockCount := 1, available := true } false true [] (by decide)).imp
      fun _ h => ⟨h.2.2.1 rfl, h.2.2.2.2.2.2.2.1⟩⟩

/-- C6. Take any state reached from the empty one by a run of operations, any operation
with defined behaviour in it, and any save point `p` on the heap before the operation.
The operation is made by one holder `h`, which makes the calls `cs`. Then:
`p` is destroyed by the operation exactly when `cs` has a `release` on `p` and the
decremented `m_refCount` is zero; a `release` on `p` is made exactly when `h` pointed to
`p` before and afterwards is gone or points elsewhere (it was reset, destroyed or
reassigned); so `p` is destroyed exactly when the last living holder that points to it
lets go of it. Once destroyed, no living holder points to it, and it is never destroyed
while a living holder other than `h` points to it. -/
theorem C6_destroyed_iff_last_reference_released (pre : List Op) (op : Op) (st st1 : State)
    (hpre : State.empty.run pre = some st) (hstep : st.step op = some st1)
    (p : Nat) (s : TInputSavePoint) (hp : st.heap.get p = some s) :
    ∃ (h : Nat) (cs : List Call), st1.log = st.log ++ cs.map (Prod.mk h) ∧
      (st1.heap.get p = none ↔ Call.release p ∈ cs ∧ s.m_refCount - 1 = 0) ∧
      (Call.release p ∈ cs ↔
        (∃ ho, st.holder h = some ho ∧ ho.savePoint = some p) ∧
          (st1.holder h).bind TInputSavePoint.Holder.savePoint ≠ some p) ∧
      (st1.heap.get p = none ↔ Call.release p ∈ cs ∧ st.refHolders p = 1) ∧
      (st1.heap.get p = none → st1.refHolders p = 0) ∧
      (∀ k ho, k ≠ h → st.holder k = some ho → ho.savePoint = some p →
        st1.heap.get p ≠ none) := by
  have hc : st.Counted := State.run_counted hpre State.empty_counted
  have hc1 : st1.Counted := State.step_counted hstep hc
  obtain ⟨h, q, l, hp0, h0, he, hafter, hframe, -⟩ := State.step_shape hstep
  have hp0p : hp0.get p = some s := State.get_start_of_get h0 hp
  have hget := Call.runAll_get he.heap_eq p
  rw [hp0p] at hget
  have hcp : s.m_refCount = (st.refHolders p : Int) := by
    have := hc p
    rw [hp] at this
    exact this.1
  have hrel := TInputSavePoint.Holder.release_mem_setCalls (st.view h) q l p
  have hgone : st1.heap.get p = none → st1.refHolders p = 0 := by
    intro hn
    have := hc1 p
    rw [hn] at this
    exact this
  have hiff : st1.heap.get p = none ↔
      Call.release p ∈ TInputSavePoint.Holder.setCalls (st.view h) q l ∧
        s.m_refCount - 1 ≤ 0 := by
    constructor
    · intro hn
      rcases Call.runAll_get_some he.heap_eq hp0p with h2 | ⟨-, -, h4⟩
      · rw [hn] at h2
        cases h2
      · refine ⟨h4, ?_⟩
        obtain ⟨h5, h6⟩ := hrel.mp h4
        have h7 : st.view h = { m_savePoint := some p, m_lock := (st.view h).m_lock } := by
          rw [← h5]
        rw [h7, TInputSavePoint.Holder.applyAt_setCalls_old _ q l p s h6] at hget
        rw [hn] at hget
        by_contra hcon
        rw [if_neg hcon] at hget
        cases hget
    · rintro ⟨h4, hle⟩
      obtain ⟨h5, h6⟩ := hrel.mp h4
      have h7 : st.view h = { m_savePoint := some p, m_lock := (st.view h).m_lock } := by
        rw [← h5]
      rw [h7, TInputSavePoint.Holder.applyAt_setCalls_old _ q l p s h6, if_pos hle] at hget
      exact hget
  have hpos : Call.release p ∈ TInputSavePoint.Holder.setCalls (st.view h) q l →
      0 < st.refHolders p := by
    intro h4
    obtain ⟨ho, h8, h9⟩ := State.view_savePoint_eq_some.mp (hrel.mp h4).1
    exact State.refHolders_pos h8 h9
  refine ⟨h, _, he.log_eq, ?_, ?_, ?_, hgone, ?_⟩
  · rw [hiff]
    constructor
    · rintro ⟨h4, hle⟩
      have := hpos h4
      exact ⟨h4, by omega⟩
    · rintro ⟨h4, hz⟩
      exact ⟨h4, by omega⟩
  · rw [hrel, State.view_savePoint_eq_some, hafter]
  · rw [hiff]
    constructor
    · rintro ⟨h4, hle⟩
      have := hpos h4
      exact ⟨h4, by omega⟩
    · rintro ⟨h4, hz⟩
      exact ⟨h4, by omega⟩
  · intro k ho hk hko hkp hn
    have h1 : st1.holder k = some ho := by rw [hframe k hk, hko]
    have := State.refHolders_pos h1 hkp
    have := hgone hn
    omega

/-- C6, at a concrete run: after `create`, the only holder of the save point at address 0
is reset, and the save point is destroyed. -/
theorem C6_destroyed_iff_last_reference_released_witness :
    State.empty.run [Op.create true] =
      some { heap := [some { m_refCount := 1, m_lockCount := 1, available := true }]
             holders := [some { m_savePoint := some 0, m_lock := true }]
             log := [(0, Call.hold 0), (0, Call.lock 0)] } ∧
    State.step
      { heap := [some { m_refCount := 1, m_lockCount := 1, available := true }]
        holders := [some { m_savePoint := some 0, m_lock := true }]
        log := [(0, Call.hold 0), (0, Call.lock 0)] } (Op.reset 0) =
      some { heap := [none]
             holders := [some { m_savePoint := none, m_lock := false }]
             log := [(0, Call.hold 0), (0, Call.lock 0), (0, Call.unlock 0),
               (0, Call.release 0)] } ∧
    Heap.get [some { m_refCount := 1, m_lockCount := 1, available := true }] 0 =
      some { m_refCount := 1, m_lockCount := 1, available := true } ∧
    ∃ (h : Nat) (cs : List Call),
      [(0, Call.hold 0), (0, Call.lock 0), (0, Call.unlock 0), (0, Call.release 0)] =
        [(0, Call.hold 0), (0, Call.lock 0)] ++ cs.map (Prod.mk h) ∧
      (Heap.get [none] 0 = none ↔ Call.release 0 ∈ cs ∧ (1 : Int) - 1 = 0) :=
  ⟨by decide, by decide, by decide,
    let ⟨h, cs, h1, h2, _⟩ := C6_destroyed_iff_last_reference_released [Op.create true]
      (Op.reset 0)
      { heap := [some { m_refCount := 1, m_lockCount := 1, available := true }]
        holders := [some { m_savePoint := some 0, m_lock := true }]
        log := [(0, Call.hold 0), (0, Call.lock 0)] }
      { heap := [none]
        holders := [some { m_savePoint := none, m_lock := false }]
        log := [(0, Call.hold 0), (0, Call.lock 0), (0, Call.unlock 0), (0, Call.release 0)] }
      (by decide) (by decide) 0 { m_refCount := 1, m_lockCount := 1, available := true }
      (by decide)
    ⟨h, cs, h1, h2⟩⟩

/-- C7. Start with no holders and no save points and perform any finite sequence of
operations, cut at any point into `pre` and `post`. If the whole sequence has defined
behaviour, then the state at the cut exists, and in it the `m_lockCount` of every save
point on the heap equals the number of living holders that point to it and for which
`locked()` is true. -/
theorem C7_lockCount_eq_locked_holders (pre post : List Op)
    (hrun : (State.empty.run (pre ++ post)).isSome = true) :
    ∃ st, State.empty.run pre = some st ∧
      ∀ p s, st.heap.get p = some s → s.m_lockCount = (st.lockHolders p : Int) := by
  rw [State.run_append] at hrun
  cases hpre : State.empty.run pre with
  | none => simp [hpre] at hrun
  | some st =>
    refine ⟨st, rfl, ?_⟩
    intro p s hp
    have hc := State.run_counted hpre State.empty_counted p
    rw [hp] at hc
    exact hc.2

/-- C7, at a concrete run: of three holders sharing a save point one is unlocked and one was
constructed unassigned with its flag set before being assigned. -/
theorem C7_lockCount_eq_locked_holders_witness :
    (State.empty.run ([Op.create false, Op.construct none true, Op.copy 0, Op.unlock 2,
        Op.set 1 (some 0) true] ++ [Op.destroy 0, Op.reset 1, Op.lock 2])).isSome = true ∧
    ∃ st, State.empty.run [Op.create false, Op.construct none true, Op.copy 0, Op.unlock 2,
        Op.set 1 (some 0) true] = some st ∧
      ∀ p s, st.heap.get p = some s → s.m_lockCount = (st.lockHolders p : Int) :=
  ⟨by decide, C7_lockCount_eq_locked_holders
    [Op.create false, Op.construct none true, Op.copy 0, Op.unlock 2, Op.set 1 (some 0) true]
    [Op.destroy 0, Op.reset 1, Op.lock 2] (by decide)⟩

/-- C8. Let a holder point to `p` (null, or the address of an object) with lock flag `l`.
Then `reset()` is `set(NULL, false)` and returns; the destructor does what `reset()` does
to the heap and makes the same calls, and as an operation on a program state `destroy`
leaves the same heap and log as `reset` (only the holder itself is gone). The calls made
are one `unlock` on `p` iff the holder held a lock (`l` set and `p` non-null), then one
`release` on `p` if `p` is non-null; `p` loses that reference, and is gone if none is left;
every other object is unchanged. Afterwards the holder is unassigned, `locked()` is false,
`available()` is false and `isFree()` is true. -/
theorem C8_reset_and_destroy (hp : Heap) (p : Option Nat) (l : Bool) (cs0 : List Call)
    (st : State) (h : Nat)
    (hp_live : ∀ a, p = some a → (hp.get a).isSome = true) :
    TInputSavePoint.Holder.reset
        { self := { m_savePoint := p, m_lock := l }, heap := hp, calls := cs0 } =
      TInputSavePoint.Holder.set
        { self := { m_savePoint := p, m_lock := l }, heap := hp, calls := cs0 } none false ∧
    st.step (Op.reset h) = st.step (Op.set h none false) ∧
    (st.step (Op.destroy h)).map (fun s => (s.heap, s.log)) =
      (st.step (Op.reset h)).map (fun s => (s.heap, s.log)) ∧
    ∃ r, TInputSavePoint.Holder.reset
        { self := { m_savePoint := p, m_lock := l }, heap := hp, calls := cs0 } = some r ∧
      TInputSavePoint.Holder.destroy
        { self := { m_savePoint := p, m_lock := l }, heap := hp, calls := cs0 } =
        some (r.heap, r.calls) ∧
      r.calls = cs0 ++
        p.elim [] (fun a => (if l = true then [Call.unlock a] else []) ++ [Call.release a]) ∧
      (∀ a s, p = some a → hp.get a = some s →
        r.heap.get a =
          if s.m_refCount - 1 ≤ 0 then none
          else some { m_refCount := s.m_refCount - 1
                      m_lockCount := s.m_lockCount - (if l = true then 1 else 0)
                      available := s.available }) ∧
      (∀ x, p ≠ some x → r.heap.get x = hp.get x) ∧
      r.self.assigned = false ∧ r.self.locked = false ∧
      r.self.available r.heap = some false ∧ r.self.isFree r.heap = some true := by
  refine ⟨rfl, rfl, ?_, ?_⟩
  · simp only [State.step, State.member]
    cases st.holder h with
    | none => rfl
    | some ho =>
      simp only [TInputSavePoint.Holder.destroy]
      cases TInputSavePoint.Holder.reset { self := ho, heap := st.heap, calls := [] } with
      | none => rfl
      | some r => rfl
  · obtain ⟨hp1, hset, -, hget⟩ := TInputSavePoint.Holder.set_some
      { self := { m_savePoint := p, m_lock := l }, heap := hp, calls := cs0 } none false
      hp_live (fun q hq => by cases hq)
    refine ⟨_, hset, ?_, ?_, ?_, ?_, rfl, rfl, rfl, rfl⟩
    · simp only [TInputSavePoint.Holder.destroy, TInputSavePoint.Holder.reset, hset,
        Option.map_some']
    · cases p <;> cases l <;> simp [TInputSavePoint.Holder.setCalls]
    · intro a s hpa hs
      subst hpa
      rw [hget]
      exact hs ▸ TInputSavePoint.Holder.applyAt_setCalls_old l none false a s (by simp)
    · intro x hx
      rw [hget]
      cases p with
      | none => cases l <;> simp [TInputSavePoint.Holder.setCalls, Call.applyAt]
      | some a =>
        have hax : ¬ a = x := fun h => hx (by rw [h])
        cases l <;> simp [TInputSavePoint.Holder.setCalls, Call.applyAt, Call.target, hax]

/-- C8, at a concrete input: a locked holder of a save point with two references and one
lock is reset. -/
theorem C8_reset_and_destroy_witness :
    (Heap.get [some { m_refCount := 2, m_lockCount := 1, available := true }] 0).isSome = true ∧
    ∃ r, TInputSavePoint.Holder.reset
        { self := { m_savePoint := some 0, m_lock := true }
          heap := [some { m_refCount := 2, m_lockCount := 1, available := true }]
          calls := [] } = some r ∧
      r.calls = [Call.unlock 0, Call.release 0] :=
  ⟨by decide,
    (C8_reset_and_destroy [some { m_refCount := 2, m_lockCount := 1, available := true }]
      (some 0) true [] State.empty 0 (fun a h => by cases h; decide)).2.2.2.imp
      fun _ h => ⟨h.1, h.2.2.1⟩⟩

/-- C9. In any state reached from the empty one, let `a` and `b` be two distinct living
holders. Then `a = b` returns; afterwards `a` has the pointer and the lock flag of `b`, and
`b` is unchanged; the save point of `b`, if non-null and not the one `a` pointed to, has
gained exactly one reference and one lock iff `b` is locked; the save point `a` pointed to,
if non-null and not that of `b`, has lost exactly one reference (and is gone if none is
left) and one lock iff `a` was locked. Likewise a holder copy-constructed from `b` has the
pointer and flag of `b`, `b` is unchanged, and the save point of `b` gains one reference and
one lock iff `b` is locked. The self-assignment `a = a` changes nothing. -/
theorem C9_assignment_and_copy (pre : List Op) (st : State) (a b : Nat)
    (ha hb : TInputSavePoint.Holder) (hpre : State.empty.run pre = some st) (hab : a ≠ b)
    (hha : st.holder a = some ha) (hhb : st.holder b = some hb) :
    (∃ st1, st.step (Op.assign a b) = some st1 ∧
      st1.holder a = some hb ∧ st1.holder b = some hb ∧
      (∀ q t, hb.savePoint = some q → ha.savePoint ≠ some q → st.heap.get q = some t →
        st1.heap.get q =
          some { m_refCount := t.m_refCount + 1
                 m_lockCount := t.m_lockCount + (if hb.locked = true then 1 else 0)
                 available := t.available }) ∧
      (∀ p s, ha.savePoint = some p → hb.savePoint ≠ some p → st.heap.get p = some s →
        st1.heap.get p =
          if s.m_refCount - 1 ≤ 0 then none
          else some { m_refCount := s.m_refCount - 1
                      m_lockCount := s.m_lockCount - (if ha.locked = true then 1 else 0)
                      available := s.available })) ∧
    (∃ st2, st.step (Op.copy b) = some st2 ∧
      st2.holder st.holders.length = some hb ∧ st2.holder b = some hb ∧
      (∀ q t, hb.savePoint = some q → st.heap.get q = some t →
        st2.heap.get q =
          some { m_refCount := t.m_refCount + 1
                 m_lockCount := t.m_lockCount + (if hb.locked = true then 1 else 0)
                 available := t.available })) ∧
    st.step (Op.assign a a) = some st := by
  have hc : st.Counted := State.run_counted hpre State.empty_counted
  obtain ⟨hlta, -⟩ := State.holder_eq_some hha
  obtain ⟨hltb, -⟩ := State.holder_eq_some hhb
  have hblive : ∀ q, hb.m_savePoint = some q → (st.heap.get q).isSome = true :=
    fun q hq => hc.live hhb hq
  have hlockb : ∀ q, hb.savePoint = some q → hb.locked = hb.m_lock := by
    intro q hq
    have : hb.m_savePoint = some q := hq
    simp [TInputSavePoint.Holder.locked, this]
  have hlocka : ∀ p, ha.savePoint = some p → ha.locked = ha.m_lock := by
    intro p hp
    have : ha.m_savePoint = some p := hp
    simp [TInputSavePoint.Holder.locked, this]
  refine ⟨?_, ?_, ?_⟩
  · obtain ⟨hp1, hstep, hget⟩ := State.member_set_some hc hha hb.m_savePoint hb.m_lock hblive
    have hs1 : st.step (Op.assign a b) = some (st.finish a
        { self := { m_savePoint := hb.m_savePoint, m_lock := hb.m_lock }
          heap := hp1
          calls := TInputSavePoint.Holder.setCalls ha hb.m_savePoint hb.m_lock }) := by
      simp only [State.step, hhb]
      exact hstep
    refine ⟨_, hs1, ?_, ?_, ?_, ?_⟩
    · rw [State.holder_finish_self _ hlta]
    · rw [State.holder_finish_of_ne _ (Ne.symm hab), hhb]
    · intro q t hq hne ht
      have hq' : hb.m_savePoint = some q := hq
      show hp1.get q = _
      rw [hget, hq', ht, hlockb q hq]
      exact TInputSavePoint.Holder.applyAt_setCalls_new ha hb.m_lock q t hne
    · intro p s hp hne hs
      have hp' : ha.m_savePoint = some p := hp
      have h7 : ha = { m_savePoint := some p, m_lock := ha.m_lock } := by
        rw [← hp']
      show hp1.get p = _
      rw [hget, hs, hlocka p hp, h7]
      exact TInputSavePoint.Holder.applyAt_setCalls_old _ hb.m_savePoint hb.m_lock p s hne
  · obtain ⟨hp1, hset, -, hget⟩ := TInputSavePoint.Holder.set_some
      { self := { m_savePoint := none, m_lock := false }, heap := st.heap, calls := [] }
      hb.m_savePoint hb.m_lock (fun p hp => by cases hp) hblive
    have hs2 : st.step (Op.copy b) = some (st.add
        { self := { m_savePoint := hb.m_savePoint, m_lock := hb.m_lock }
          heap := hp1
          calls := [] ++ TInputSavePoint.Holder.setCalls
            { m_savePoint := none, m_lock := false } hb.m_savePoint hb.m_lock }) := by
      simp only [State.step, hhb, TInputSavePoint.Holder.copy, TInputSavePoint.Holder.assign,
        hset, Option.map_some']
    refine ⟨_, hs2, ?_, ?_, ?_⟩
    · rw [State.holder_add_self]
    · rw [State.holder_add_of_ne _ (Nat.ne_of_lt hltb), hhb]
    · intro q t hq ht
      have hq' : hb.m_savePoint = some q := hq
      show hp1.get q = _
      rw [hget, hq', hlockb q hq]
      exact ht ▸ TInputSavePoint.Holder.applyAt_setCalls_new _ hb.m_lock q t (by simp)
  · simp only [State.step, hha, State.member, TInputSavePoint.Holder.assign,
      TInputSavePoint.Holder.set_eq]
    have hcalls : TInputSavePoint.Holder.setCalls ha ha.m_savePoint ha.m_lock = [] := by
      simp [TInputSavePoint.Holder.setCalls]
    simp only [hcalls, Call.runAll, Option.map_some', List.append_nil]
    exact congrArg some (State.finish_same st hha)

/-- C9, at a concrete run: two holders made by `create`, on the save points at addresses 0
and 1; the first is assigned the second. -/
theorem C9_assignment_and_copy_witness :
    State.empty.run [Op.create true, Op.create false] =
      some { heap := [some { m_refCount := 1, m_lockCount := 1, available := true },
               some { m_refCount := 1, m_lockCount := 1, available := false }]
             holders := [some { m_savePoint := some 0, m_lock := true },
               some { m_savePoint := some 1, m_lock := true }]
             log := [(0, Call.hold 0), (0, Call.lock 0), (1, Call.hold 1), (1, Call.lock 1)] } ∧
    (0 : Nat) ≠ 1 ∧
    ∃ st1, State.step
        { heap := [some { m_refCount := 1, m_lockCount := 1, available := true },
            some { m_refCount := 1, m_lockCount := 1, available := false }]
          holders := [some { m_savePoint := some 0, m_lock := true },
            some { m_savePoint := some 1, m_lock := true }]
          log := [(0, Call.hold 0), (0, Call.lock 0), (1, Call.hold 1), (1, Call.lock 1)] }
        (Op.assign 0 1) = some st1 ∧
      st1.holder 0 = some { m_savePoint := some 1, m_lock := true } :=
  ⟨by decide, by decide,
    (C9_assignment_and_copy [Op.create true, Op.create false]
      { heap := [some { m_refCount := 1, m_lockCount := 1, available := true },
          some { m_refCount := 1, m_lockCount := 1, available := false }]
        holders := [some { m_savePoint := some 0, m_lock := true },
          some { m_savePoint := some 1, m_lock := true }]
        log := [(0, Call.hold 0), (0, Call.lock 0), (1, Call.hold 1), (1, Call.lock 1)] }
      0 1 { m_savePoint := some 0, m_lock := true } { m_savePoint := some 1, m_lock := true }
      (by decide) (by decide) (by decide) (by decide)).1.imp fun _ h => ⟨h.1, h.2.1⟩⟩

/-- C10. `unlock()` on a holder for which `locked()` is false (its flag is clear, or it is
unassigned) returns, makes no call and leaves the heap as it is; `reset()` on an unassigned
holder returns, makes no call and leaves the heap as it is. And at every cut of every run
with defined behaviour from the empty state, every holder has made, on every address, no
more `unlock` calls than `lock` calls and no more `release` calls than `hold` calls, and
holds at most one reference and one lock that it has not given back. -/
theorem C10_no_double_unlock_or_release (r : TInputSavePoint.Holder.Run)
    (pre post : List Op) (hrun : (State.empty.run (pre ++ post)).isSome = true) :
    (r.self.locked = false →
      ∃ r1, TInputSavePoint.Holder.unlock r = some r1 ∧ r1.heap = r.heap ∧
        r1.calls = r.calls ∧ r1.self.savePoint = r.self.savePoint) ∧
    (r.self.assigned = false →
      ∃ r1, TInputSavePoint.Holder.reset r = some r1 ∧ r1.heap = r.heap ∧
        r1.calls = r.calls ∧ r1.self.savePoint = none) ∧
    ∃ st, State.empty.run pre = some st ∧
      ∀ h p,
        (st.callsOf h).count (Call.unlock p) ≤ (st.callsOf h).count (Call.lock p) ∧
        (st.callsOf h).count (Call.lock p) ≤ (st.callsOf h).count (Call.unlock p) + 1 ∧
        (st.callsOf h).count (Call.release p) ≤ (st.callsOf h).count (Call.hold p) ∧
        (st.callsOf h).count (Call.hold p) ≤ (st.callsOf h).count (Call.release p) + 1 := by
  refine ⟨?_, ?_, ?_⟩
  · intro hl
    obtain ⟨⟨sp, l⟩, hp, cs⟩ := r
    refine ⟨{ self := { m_savePoint := sp, m_lock := false }, heap := hp, calls := cs },
      ?_, rfl, rfl, rfl⟩
    simp only [TInputSavePoint.Holder.unlock, TInputSavePoint.Holder.setLock,
      TInputSavePoint.Holder.set_eq]
    cases sp <;> cases l <;>
      simp_all [TInputSavePoint.Holder.setCalls, TInputSavePoint.Holder.locked, Call.runAll]
  · intro ha
    obtain ⟨⟨sp, l⟩, hp, cs⟩ := r
    refine ⟨{ self := { m_savePoint := none, m_lock := false }, heap := hp, calls := cs },
      ?_, rfl, rfl, rfl⟩
    simp only [TInputSavePoint.Holder.reset, TInputSavePoint.Holder.set_eq]
    cases sp <;> cases l <;>
      simp_all [TInputSavePoint.Holder.setCalls, TInputSavePoint.Holder.assigned,
        TInputSavePoint.Holder.savePoint, Call.runAll]
  · rw [State.run_append] at hrun
    cases hpre : State.empty.run pre with
    | none => simp [hpre] at hrun
    | some st =>
      refine ⟨st, rfl, ?_⟩
      intro h p
      obtain ⟨h1, h2⟩ := State.run_balanced hpre State.empty_balanced h p
      rw [Call.refSum_eq_count] at h1
      rw [Call.lockSum_eq_count] at h2
      refine ⟨?_, ?_, ?_, ?_⟩
      · split_ifs at h2 <;> omega
      · split_ifs at h2 <;> omega
      · split_ifs at h1 <;> omega
      · split_ifs at h1 <;> omega

/-- C10, at a concrete run: a holder is locked, unlocked twice, reset twice. -/
theorem C10_no_double_unlock_or_release_witness :
    (State.empty.run ([Op.create true, Op.unlock 0, Op.unlock 0, Op.reset 0] ++
      [Op.reset 0])).isSome = true ∧
    ∃ st, State.empty.run [Op.create true, Op.unlock 0, Op.unlock 0, Op.reset 0] = some st ∧
      ∀ h p,
        (st.callsOf h).count (Call.unlock p) ≤ (st.callsOf h).count (Call.lock p) ∧
        (st.callsOf h).count (Call.lock p) ≤ (st.callsOf h).count (Call.unlock p) + 1 ∧
        (st.callsOf h).count (Call.release p) ≤ (st.callsOf h).count (Call.hold p) ∧
        (st.callsOf h).count (Call.hold p) ≤ (st.callsOf h).count (Call.release p) + 1 :=
  ⟨by decide,
    (C10_no_double_unlock_or_release
      { self := { m_savePoint := none, m_lock := true }, heap := [], calls := [] }
      [Op.create true, Op.unlock 0, Op.unlock 0, Op.reset 0] [Op.reset 0] (by decide)).2.2⟩

/-- C11. Start with no holders and no save points and perform any finite sequence of
operations, with save points made by `create` or by a bare `new TInputSavePoint(available)`,
cut at any point into `pre` and `post`. If the whole sequence has defined behaviour, then
the state at the cut exists, and in it every save point on the heap has `m_refCount ≥ 0`,
and `m_refCount ≥ 1` if some living holder points to it. -/
theorem C11_refCount_never_negative (pre post : List Op)
    (hrun : (State.empty.run (pre ++ post)).isSome = true) :
    ∃ st, State.empty.run pre = some st ∧
      ∀ p s, st.heap.get p = some s →
        0 ≤ s.m_refCount ∧
        ((∃ h ho, st.holder h = some ho ∧ ho.savePoint = some p) → 1 ≤ s.m_refCount) := by
  rw [State.run_append] at hrun
  cases hpre : State.empty.run pre with
  | none => simp [hpre] at hrun
  | some st =>
    refine ⟨st, rfl, ?_⟩
    intro p s hp
    have hc := State.run_counted hpre State.empty_counted p
    rw [hp] at hc
    have h1 : s.m_refCount = (st.refHolders p : Int) := hc.1
    refine ⟨by omega, ?_⟩
    rintro ⟨h, ho, hh, hsp⟩
    have := State.refHolders_pos hh hsp
    omega

/-- C11, at a concrete run: one save point made by a bare `new` and held by a holder
constructed on it, one made by `create`; later both holders let go. -/
theorem C11_refCount_never_negative_witness :
    (State.empty.run ([Op.newSavePoint true, Op.construct (some 0) false, Op.create false,
        Op.copy 0] ++ [Op.reset 0, Op.destroy 2, Op.destroy 1])).isSome = true ∧
    ∃ st, State.empty.run [Op.newSavePoint true, Op.construct (some 0) false, Op.create false,
        Op.copy 0] = some st ∧
      ∀ p s, st.heap.get p = some s →
        0 ≤ s.m_refCount ∧
        ((∃ h ho, st.holder h = some ho ∧ ho.savePoint = some p) → 1 ≤ s.m_refCount) :=
  ⟨by decide, C11_refCount_never_negative
    [Op.newSavePoint true, Op.construct (some 0) false, Op.create false, Op.copy 0]
    [Op.reset 0, Op.destroy 2, Op.destroy 1] (by decide)⟩

/-- C12. `Holder::available()` returns true exactly when the holder is assigned and the
save point it points to has its `available` flag set; an unset holder reports false. It
returns a value whenever the holder is unset or points to an object. -/
theorem C12_available_iff (h : TInputSavePoint.Holder) (hp : Heap) :
    (h.available hp = some true ↔
      h.assigned = true ∧
        ∃ p t, h.savePoint = some p ∧ hp.get p = some t ∧ t.available = true) ∧
    (h.savePoint = none → h.available hp = some false) ∧
    ((h.available hp).isSome = true ↔
      h.savePoint = none ∨ ∃ p t, h.savePoint = some p ∧ hp.get p = some t) := by
  obtain ⟨sp, l⟩ := h
  cases sp with
  | none =>
    simp [TInputSavePoint.Holder.available, TInputSavePoint.Holder.savePoint,
      TInputSavePoint.Holder.assigned]
  | some p =>
    cases hg : hp.get p with
    | none =>
      simp [TInputSavePoint.Holder.available, TInputSavePoint.Holder.savePoint,
        TInputSavePoint.Holder.assigned, hg]
    | some t =>
      simp [TInputSavePoint.Holder.available, TInputSavePoint.Holder.savePoint,
        TInputSavePoint.Holder.assigned, hg]

/-- C13. Start from a new manager and perform any sequence of `insertModifier`,
`addModifier`, `removeModifier` and `clearModifiers` calls, cut at any point into `pre`
and `post`. If every call in the sequence has a result (its index is in range), then the
state at the cut exists and in it `m_tracks.size()` and `m_hovers.size()` both equal
`getModifiersCount() + 1`. In that state every further call with an index in range has a
result: `insertModifier` for `0 ≤ index ≤ getModifiersCount()`, `addModifier` always,
`removeModifier` for `0 ≤ index < getModifiersCount()`, `clearModifiers` always. -/
theorem C13_stage_arrays_one_longer_than_chain {M T H : Type} [Inhabited T] [Inhabited H]
    (pre post : List (TInputManager.Op M))
    (hrun : ((TInputManager.new : TInputManager M T H).run (pre ++ post)).isSome = true) :
    ∃ m, (TInputManager.new : TInputManager M T H).run pre = some m ∧
      (m.m_tracks.length : Int) = m.getModifiersCount + 1 ∧
      (m.m_hovers.length : Int) = m.getModifiersCount + 1 ∧
      (∀ index modifier, 0 ≤ index → index ≤ m.getModifiersCount →
        (m.insertModifier index modifier).isSome = true) ∧
      (∀ modifier, (m.addModifier modifier).isSome = true) ∧
      (∀ index, 0 ≤ index → index < m.getModifiersCount →
        (m.removeModifier index).isSome = true) ∧
      (∃ m1, m.clearModifiers = some m1 ∧ m1.getModifiersCount = 0 ∧
        m1.m_tracks.length = 1 ∧ m1.m_hovers.length = 1) := by
  rw [TInputManager.chain_run_append] at hrun
  cases hpre : (TInputManager.new : TInputManager M T H).run pre with
  | none => simp [hpre] at hrun
  | some m =>
    have hm : m.StagesMatch := TInputManager.run_stagesMatch TInputManager.new_stagesMatch hpre
    refine ⟨m, rfl, ?_, ?_, ?_, ?_, ?_, ?_⟩
    · simp only [TInputManager.getModifiersCount, hm.1]
      omega
    · simp only [TInputManager.getModifiersCount, hm.2]
      omega
    · intro index modifier h0 h1
      exact TInputManager.insertModifier_isSome hm modifier h0 h1
    · intro modifier
      exact TInputManager.insertModifier_isSome hm modifier
        (Int.natCast_nonneg _) (le_refl _)
    · intro index h0 h1
      exact TInputManager.removeModifier_isSome hm h0 h1
    · obtain ⟨m1, h1, h2, h3⟩ := TInputManager.clearLoop_spec m.m_modifiers.length m hm rfl
      refine ⟨m1, h1, ?_, ?_, ?_⟩
      · simp [TInputManager.getModifiersCount, h3]
      · rw [h2.1, h3]
      · rw [h2.2, h3]

/-- C13, at a concrete run, with numbers for modifiers and lists of numbers for stages. -/
theorem C13_stage_arrays_one_longer_than_chain_witness :
    ((TInputManager.new : TInputManager Nat (List Nat) (List Nat)).run
      ([TInputManager.Op.addModifier 7, TInputManager.Op.insertModifier 0 8,
        TInputManager.Op.removeModifier 1] ++
       [TInputManager.Op.addModifier 9, TInputManager.Op.clearModifiers])).isSome = true ∧
    ∃ m, (TInputManager.new : TInputManager Nat (List Nat) (List Nat)).run
        [TInputManager.Op.addModifier 7, TInputManager.Op.insertModifier 0 8,
          TInputManager.Op.removeModifier 1] = some m ∧
      (m.m_tracks.length : Int) = m.getModifiersCount + 1 ∧
      (m.m_hovers.length : Int) = m.getModifiersCount + 1 :=
  ⟨by decide,
    (C13_stage_arrays_one_longer_than_chain
      [TInputManager.Op.addModifier 7, TInputManager.Op.insertModifier 0 8,
        TInputManager.Op.removeModifier 1]
      [TInputManager.Op.addModifier 9, TInputManager.Op.clearModifiers] (by decide)).imp
      fun _ h => ⟨h.1, h.2.1, h.2.2.1⟩⟩

/-- C14. In every manager state with `m_tracks.size() = m_hovers.size() = N + 1`, where
`N = getModifiersCount()`, the accessors return a value: `getInputTracks()` and
`getInputHovers()` return stage `0`, `getOutputTracks()` and `getOutputHovers()` return
stage `N`. With no modifier installed the input and the output accessor return the same
stage. -/
theorem C14_accessors_return_first_and_last_stage {M T H : Type} (m : TInputManager M T H)
    (N : Nat) (hN : m.getModifiersCount = (N : Int))
    (htracks : m.m_tracks.length = N + 1) (hhovers : m.m_hovers.length = N + 1) :
    (∃ t, m.getInputTracks = some t ∧ m.m_tracks[0]? = some t) ∧
    (∃ t, m.getOutputTracks = some t ∧ m.m_tracks[N]? = some t) ∧
    (∃ v, m.getInputHovers = some v ∧ m.m_hovers[0]? = some v) ∧
    (∃ v, m.getOutputHovers = some v ∧ m.m_hovers[N]? = some v) ∧
    (N = 0 → m.getInputTracks = m.getOutputTracks ∧ m.getInputHovers = m.getOutputHovers) := by
  have ht0 : 0 < m.m_tracks.length := by omega
  have htN : N < m.m_tracks.length := by omega
  have hh0 : 0 < m.m_hovers.length := by omega
  have hhN : N < m.m_hovers.length := by omega
  have e1 : m.getInputTracks = m.m_tracks[0]? := List.head?_eq_getElem? _
  have e2 : m.getOutputTracks = m.m_tracks[N]? := by
    simp only [TInputManager.getOutputTracks, List.getLast?_eq_getElem?, htracks,
      Nat.add_sub_cancel]
  have e3 : m.getInputHovers = m.m_hovers[0]? := List.head?_eq_getElem? _
  have e4 : m.getOutputHovers = m.m_hovers[N]? := by
    simp only [TInputManager.getOutputHovers, List.getLast?_eq_getElem?, hhovers,
      Nat.add_sub_cancel]
  refine ⟨⟨m.m_tracks[0], ?_, ?_⟩, ⟨m.m_tracks[N], ?_, ?_⟩, ⟨m.m_hovers[0], ?_, ?_⟩,
    ⟨m.m_hovers[N], ?_, ?_⟩, ?_⟩
  · rw [e1, List.getElem?_eq_getElem ht0]
  · rw [List.getElem?_eq_getElem ht0]
  · rw [e2, List.getElem?_eq_getElem htN]
  · rw [List.getElem?_eq_getElem htN]
  · rw [e3, List.getElem?_eq_getElem hh0]
  · rw [List.getElem?_eq_getElem hh0]
  · rw [e4, List.getElem?_eq_getElem hhN]
  · rw [List.getElem?_eq_getElem hhN]
  · intro h0
    subst h0
    exact ⟨by rw [e1, e2], by rw [e3, e4]⟩

/-- C14, at a concrete state: two modifiers, three stages of each kind. -/
theorem C14_accessors_return_first_and_last_stage_witness :
    TInputManager.getModifiersCount
      ({ m_modifiers := [7, 8], m_tracks := [[1], [2], [3]], m_hovers := [[4], [5], [6]] } :
        TInputManager Nat (List Nat) (List Nat)) = ((2 : Nat) : Int) ∧
    ([[1], [2], [3]] : List (List Nat)).length = 2 + 1 ∧
    ([[4], [5], [6]] : List (List Nat)).length = 2 + 1 ∧
    ∃ t, TInputManager.getOutputTracks
        ({ m_modifiers := [7, 8], m_tracks := [[1], [2], [3]], m_hovers := [[4], [5], [6]] } :
          TInputManager Nat (List Nat) (List Nat)) = some t ∧
      ([[1], [2], [3]] : List (List Nat))[2]? = some t :=
  ⟨by decide, by decide, by decide,
    (C14_accessors_return_first_and_last_stage
      ({ m_modifiers := [7, 8], m_tracks := [[1], [2], [3]], m_hovers := [[4], [5], [6]] } :
        TInputManager Nat (List Nat) (List Nat)) 2 (by decide) (by decide) (by decide)).2.1⟩

/-- C15. Let a holder and a pointer `q` be given, the holder's own pointer and `q` each
null or the address of an object. Then `set(q, l)` returns, whichever of its three branches
runs, and afterwards `savePoint()` is `q` and the stored lock flag is `l`; so `locked()` is
true iff `q` is non-null and `l` is true. In particular a holder constructed with a null
pointer and `lock = true`, or set to a null pointer with `lock = true`, is not `locked()`. -/
theorem C15_set_stores_pointer_and_flag (r : TInputSavePoint.Holder.Run) (q : Option Nat)
    (l : Bool) (hp : Heap)
    (hself : ∀ p, r.self.m_savePoint = some p → (r.heap.get p).isSome = true)
    (harg : ∀ b, q = some b → (r.heap.get b).isSome = true) :
    (∃ r1, TInputSavePoint.Holder.set r q l = some r1 ∧
      r1.self.savePoint = q ∧ r1.self.m_lock = l ∧
      (r1.self.locked = true ↔ q.isSome = true ∧ l = true)) ∧
    (∃ r2, TInputSavePoint.Holder.construct hp none true = some r2 ∧
      r2.self.m_lock = true ∧ r2.self.assigned = false ∧ r2.self.locked = false) ∧
    (∃ r3, TInputSavePoint.Holder.set r none true = some r3 ∧
      r3.self.m_lock = true ∧ r3.self.assigned = false ∧ r3.self.locked = false) := by
  refine ⟨?_, ?_, ?_⟩
  · obtain ⟨hp1, hset, -, -⟩ := TInputSavePoint.Holder.set_some r q l hself harg
    refine ⟨_, hset, rfl, rfl, ?_⟩
    simp [TInputSavePoint.Holder.locked]
  · obtain ⟨hp1, hset, -, -⟩ := TInputSavePoint.Holder.set_some
      { self := { m_savePoint := none, m_lock := false }, heap := hp, calls := [] } none true
      (fun p h => by cases h) (fun b h => by cases h)
    exact ⟨_, hset, rfl, rfl, rfl⟩
  · obtain ⟨hp1, hset, -, -⟩ := TInputSavePoint.Holder.set_some r none true hself
      (fun b h => by cases h)
    exact ⟨_, hset, rfl, rfl, rfl⟩

/-- C15, at a concrete input: a locked holder of the save point at address 0 is set to the
null pointer with `lock = true`. -/
theorem C15_set_stores_pointer_and_flag_witness :
    (Heap.get [some { m_refCount := 2, m_lockCount := 1, available := true }] 0).isSome = true ∧
    ∃ r1, TInputSavePoint.Holder.set
        { self := { m_savePoint := some 0, m_lock := true }
          heap := [some { m_refCount := 2, m_lockCount := 1, available := true }]
          calls := [] } none true = some r1 ∧
      r1.self.savePoint = none ∧ r1.self.m_lock = true ∧
      (r1.self.locked = true ↔ (none : Option Nat).isSome = true ∧ true = true) :=
  ⟨by decide,
    (C15_set_stores_pointer_and_flag
      { self := { m_savePoint := some 0, m_lock := true }
        heap := [some { m_refCount := 2, m_lockCount := 1, available := true }]
        calls := [] } none true []
      (fun p h => by cases h; decide) (fun b h => by cases h)).1⟩

/-- C16. Start with no holders and no save points and perform any finite sequence of
operations, cut at any point into `pre` and `post`. If the whole sequence has defined
behaviour, then the state at the cut exists, and in it every save point on the heap has
`m_lockCount ≥ 0` and is `isFree()` exactly when no living holder that points to it is
`locked()`; and every living holder for which `locked()` is true gets false from its own
`isFree()`. -/
theorem C16_lockCount_never_negative (pre post : List Op)
    (hrun : (State.empty.run (pre ++ post)).isSome = true) :
    ∃ st, State.empty.run pre = some st ∧
      (∀ p s, st.heap.get p = some s →
        0 ≤ s.m_lockCount ∧
        (s.isFree = true ↔
          ∀ h ho, st.holder h = some ho → ho.savePoint = some p → ho.locked = false)) ∧
      (∀ h ho, st.holder h = some ho → ho.locked = true → ho.isFree st.heap = some false) := by
  rw [State.run_append] at hrun
  cases hpre : State.empty.run pre with
  | none => simp [hpre] at hrun
  | some st =>
    have hc := State.run_counted hpre State.empty_counted
    have hlock : ∀ p s, st.heap.get p = some s → s.m_lockCount = (st.lockHolders p : Int) := by
      intro p s hp
      have := hc p
      rw [hp] at this
      exact this.2
    refine ⟨st, rfl, ?_, ?_⟩
    · intro p s hp
      have h1 := hlock p s hp
      refine ⟨by omega, ?_⟩
      rw [← State.lockHolders_eq_zero_iff]
      simp only [TInputSavePoint.isFree, decide_eq_true_eq]
      omega
    · intro h ho hh hl
      obtain ⟨sp, l⟩ := ho
      cases sp with
      | none => simp [TInputSavePoint.Holder.locked] at hl
      | some p =>
        obtain ⟨s, hs⟩ := Option.isSome_iff_exists.mp (hc.live hh rfl)
        have h1 := hlock p s hs
        have h2 := State.lockHolders_pos hh rfl hl
        simp only [TInputSavePoint.Holder.isFree, hs, Option.map_some', Option.some.injEq,
          TInputSavePoint.isFree, decide_eq_false_iff_not]
        omega

/-- C16, at a concrete run: two holders share a save point, one of them is unlocked. -/
theorem C16_lockCount_never_negative_witness :
    (State.empty.run ([Op.create true, Op.copy 0, Op.unlock 0] ++
      [Op.unlock 1, Op.destroy 0])).isSome = true ∧
    ∃ st, State.empty.run [Op.create true, Op.copy 0, Op.unlock 0] = some st ∧
      (∀ p s, st.heap.get p = some s →
        0 ≤ s.m_lockCount ∧
        (s.isFree = true ↔
          ∀ h ho, st.holder h = some ho → ho.savePoint = some p → ho.locked = false)) ∧
      (∀ h ho, st.holder h = some ho → ho.locked = true → ho.isFree st.heap = some false) :=
  ⟨by decide, C16_lockCount_never_negative [Op.create true, Op.copy 0, Op.unlock 0]
    [Op.unlock 1, Op.destroy 0] (by decide)⟩

/-- C17. `Holder::set` is idempotent. Let the holder's own pointer and `q` each be null or
the address of an object. Then `set(q, l)` returns, and a second `set(q, l)` right after it
returns the very same result: the same holder, the same heap (so every save point's
`m_refCount` and `m_lockCount`) and no further call. As an equation that needs no
assumption: `set(q, l)` twice in succession is `set(q, l)` once. -/
theorem C17_set_idempotent (r : TInputSavePoint.Holder.Run) (q : Option Nat) (l : Bool)
    (hself : ∀ p, r.self.m_savePoint = some p → (r.heap.get p).isSome = true)
    (harg : ∀ b, q = some b → (r.heap.get b).isSome = true) :
    (∃ r1, TInputSavePoint.Holder.set r q l = some r1 ∧
      TInputSavePoint.Holder.set r1 q l = some r1) ∧
    ((TInputSavePoint.Holder.set r q l).bind fun r1 => TInputSavePoint.Holder.set r1 q l) =
      TInputSavePoint.Holder.set r q l := by
  have hagain : ∀ hp1, TInputSavePoint.Holder.set
      { self := { m_savePoint := q, m_lock := l }, heap := hp1
        calls := r.calls ++ TInputSavePoint.Holder.setCalls r.self q l } q l = some
      { self := { m_savePoint := q, m_lock := l }, heap := hp1
        calls := r.calls ++ TInputSavePoint.Holder.setCalls r.self q l } := fun hp1 =>
    TInputSavePoint.Holder.set_again
      { self := r.self, heap := hp1
        calls := r.calls ++ TInputSavePoint.Holder.setCalls r.self q l } q l
  constructor
  · obtain ⟨hp1, hset, -, -⟩ := TInputSavePoint.Holder.set_some r q l hself harg
    exact ⟨_, hset, hagain hp1⟩
  · rw [TInputSavePoint.Holder.set_eq r q l]
    cases Call.runAll (TInputSavePoint.Holder.setCalls r.self q l) r.heap with
    | none => rfl
    | some hp1 =>
      simp only [Option.map_some', Option.some_bind]
      exact hagain hp1

/-- C17, at a concrete input: a locked holder of the save point at address 0 is set twice
to the save point at address 1, unlocked. -/
theorem C17_set_idempotent_witness :
    (Heap.get [some { m_refCount := 1, m_lockCount := 1, available := true },
      some { m_refCount := 1, m_lockCount := 0, available := false }] 0).isSome = true ∧
    (Heap.get [some { m_refCount := 1, m_lockCount := 1, available := true },
      some { m_refCount := 1, m_lockCount := 0, available := false }] 1).isSome = true ∧
    ∃ r1, TInputSavePoint.Holder.set
        { self := { m_savePoint := some 0, m_lock := true }
          heap := [some { m_refCount := 1, m_lockCount := 1, available := true },
            some { m_refCount := 1, m_lockCount := 0, available := false }]
          calls := [] } (some 1) false = some r1 ∧
      TInputSavePoint.Holder.set r1 (some 1) false = some r1 :=
  ⟨by decide, by decide,
    (C17_set_idempotent
      { self := { m_savePoint := some 0, m_lock := true }
        heap := [some { m_refCount := 1, m_lockCount := 1, available := true },
          some { m_refCount := 1, m_lockCount := 0, available := false }]
        calls := [] } (some 1) false
      (fun p h => by cases h; decide) (fun b h => by cases h; decide)).1⟩

/-- C18. Let an unlocked holder point to the save point at address `a`. Then `lock()`
followed by `unlock()` returns and restores the holder and the whole heap, so in particular
the save point's `m_refCount` and `m_lockCount`; in between the lock count is one higher.
Symmetrically for a locked holder, `unlock()` followed by `lock()` restores the holder and
the whole heap; in between the lock count is one lower. -/
theorem C18_lock_unlock_round_trip (hp : Heap) (a : Nat) (s : TInputSavePoint)
    (cs0 : List Call) (hs : hp.get a = some s) :
    (∃ r1 r2, TInputSavePoint.Holder.lock
        { self := { m_savePoint := some a, m_lock := false }, heap := hp, calls := cs0 } =
        some r1 ∧
      TInputSavePoint.Holder.unlock r1 = some r2 ∧
      r1.heap.get a = some { s with m_lockCount := s.m_lockCount + 1 } ∧
      r2.self = { m_savePoint := some a, m_lock := false } ∧ r2.heap = hp) ∧
    (∃ r1 r2, TInputSavePoint.Holder.unlock
        { self := { m_savePoint := some a, m_lock := true }, heap := hp, calls := cs0 } =
        some r1 ∧
      TInputSavePoint.Holder.lock r1 = some r2 ∧
      r1.heap.get a = some { s with m_lockCount := s.m_lockCount - 1 } ∧
      r2.self = { m_savePoint := some a, m_lock := true } ∧ r2.heap = hp) := by
  have hlive : ∀ p, some a = some p → (hp.get p).isSome = true := by
    intro p h
    cases h
    simp [hs]
  constructor
  · obtain ⟨hp1, hset1, hrun1, hget1⟩ := TInputSavePoint.Holder.set_some
      { self := { m_savePoint := some a, m_lock := false }, heap := hp, calls := cs0 }
      (some a) true hlive hlive
    have ha1 : hp1.get a = some { s with m_lockCount := s.m_lockCount + 1 } := by
      rw [hget1]
      simp [TInputSavePoint.Holder.setCalls, Call.applyAt, Call.target, Call.apply, hs,
        TInputSavePoint.lock]
    have hlive1 : ∀ p, some a = some p → (hp1.get p).isSome = true := by
      intro p h
      cases h
      simp [ha1]
    obtain ⟨hp2, hset2, hrun2, hget2⟩ := TInputSavePoint.Holder.set_some
      { self := { m_savePoint := some a, m_lock := true }, heap := hp1
        calls := cs0 ++ TInputSavePoint.Holder.setCalls
          { m_savePoint := some a, m_lock := false } (some a) true }
      (some a) false hlive1 hlive1
    refine ⟨_, _, hset1, hset2, ha1, rfl, ?_⟩
    apply Heap.ext_get
    · rw [Call.length_runAll hrun2, Call.length_runAll hrun1]
    · intro x
      rw [hget2]
      by_cases hx : a = x
      · subst hx
        simp [TInputSavePoint.Holder.setCalls, Call.applyAt, Call.target, Call.apply, ha1, hs,
          TInputSavePoint.unlock]
      · rw [hget1]
        simp [TInputSavePoint.Holder.setCalls, Call.applyAt, Call.target, hx]
  · obtain ⟨hp1, hset1, hrun1, hget1⟩ := TInputSavePoint.Holder.set_some
      { self := { m_savePoint := some a, m_lock := true }, heap := hp, calls := cs0 }
      (some a) false hlive hlive
    have ha1 : hp1.get a = some { s with m_lockCount := s.m_lockCount - 1 } := by
      rw [hget1]
      simp [TInputSavePoint.Holder.setCalls, Call.applyAt, Call.target, Call.apply, hs,
        TInputSavePoint.unlock]
    have hlive1 : ∀ p, some a = some p → (hp1.get p).isSome = true := by
      intro p h
      cases h
      simp [ha1]
    obtain ⟨hp2, hset2, hrun2, hget2⟩ := TInputSavePoint.Holder.set_some
      { self := { m_savePoint := some a, m_lock := false }, heap := hp1
        calls := cs0 ++ TInputSavePoint.Holder.setCalls
          { m_savePoint := some a, m_lock := true } (some a) false }
      (some a) true hlive1 hlive1
    refine ⟨_, _, hset1, hset2, ha1, rfl, ?_⟩
    apply Heap.ext_get
    · rw [Call.length_runAll hrun2, Call.length_runAll hrun1]
    · intro x
      rw [hget2]
      by_cases hx : a = x
      · subst hx
        simp [TInputSavePoint.Holder.setCalls, Call.applyAt, Call.target, Call.apply, ha1, hs,
          TInputSavePoint.lock]
      · rw [hget1]
        simp [TInputSavePoint.Holder.setCalls, Call.applyAt, Call.target, hx]

/-- C18, at a concrete input: an unlocked holder of a save point with two references and
one lock is locked, then unlocked. -/
theorem C18_lock_unlock_round_trip_witness :
    Heap.get [some { m_refCount := 2, m_lockCount := 1, available := true }] 0 =
      some { m_refCount := 2, m_lockCount := 1, available := true } ∧
    ∃ r1 r2, TInputSavePoint.Holder.lock
        { self := { m_savePoint := some 0, m_lock := false }
          heap := [some { m_refCount := 2, m_lockCount := 1, available := true }]
          calls := [] } = some r1 ∧
      TInputSavePoint.Holder.unlock r1 = some r2 ∧
      r2.heap = [some { m_refCount := 2, m_lockCount := 1, available := true }] :=
  ⟨by decide,
    let ⟨r1, r2, h1, h2, _, _, h5⟩ := (C18_lock_unlock_round_trip
      [some { m_refCount := 2, m_lockCount := 1, available := true }] 0
      { m_refCount := 2, m_lockCount := 1, available := true } [] (by decide)).1
    ⟨r1, r2, h1, h2, h5⟩⟩

/-- C19. In any program state let `h` be a living holder, pointing to `p` (possibly null),
and let `h.set(q, l)` have defined behaviour. Then every object at an address other than
`p` and `q` is unchanged (so its `m_refCount` and `m_lockCount` are), every other holder
is unchanged (so its `savePoint()` and lock flag are), and every save point that is on the
heap before and after has the same `available` flag. The same holds for `reset`,
`setLock`, `lock`, `unlock` and assignment, which are `set` with other arguments, and for
the destructor, which leaves the heap of `reset` and changes no other holder. -/
theorem C19_frame_of_set (st st1 : State) (h : Nat) (ho : TInputSavePoint.Holder)
    (q : Option Nat) (l : Bool) (hh : st.holder h = some ho)
    (hstep : st.step (Op.set h q l) = some st1) :
    (∀ x, ho.savePoint ≠ some x → q ≠ some x → st1.heap.get x = st.heap.get x) ∧
    (∀ k, k ≠ h → st1.holder k = st.holder k) ∧
    (∀ x s s1, st.heap.get x = some s → st1.heap.get x = some s1 →
      s1.available = s.available) ∧
    st.step (Op.reset h) = st.step (Op.set h none false) ∧
    st.step (Op.setLock h l) = st.step (Op.set h ho.savePoint l) ∧
    st.step (Op.lock h) = st.step (Op.set h ho.savePoint true) ∧
    st.step (Op.unlock h) = st.step (Op.set h ho.savePoint false) ∧
    (∀ o ob, st.holder o = some ob →
      st.step (Op.assign h o) = st.step (Op.set h ob.savePoint ob.m_lock)) ∧
    (st.step (Op.destroy h)).map (fun s => s.heap) =
      (st.step (Op.reset h)).map (fun s => s.heap) ∧
    (∀ st2, st.step (Op.destroy h) = some st2 → ∀ k, k ≠ h → st2.holder k = st.holder k) := by
  have hmem : st.member h (fun r => TInputSavePoint.Holder.set r q l) = some st1 := hstep
  obtain ⟨ho1, r, h1, h2, rfl⟩ := State.member_eq_some hmem
  rw [hh] at h1
  cases h1
  rw [TInputSavePoint.Holder.set_eq] at h2
  obtain ⟨hp1, hrun, hr⟩ := Option.map_eq_some'.mp h2
  subst hr
  refine ⟨?_, ?_, ?_, rfl, ?_, ?_, ?_, ?_, ?_, ?_⟩
  · intro x hpx hqx
    show hp1.get x = _
    rw [Call.runAll_get hrun x]
    obtain ⟨sp, l0⟩ := ho
    have hpx' : sp ≠ some x := hpx
    cases sp with
    | none =>
      cases q with
      | none => cases l0 <;> cases l <;> simp [TInputSavePoint.Holder.setCalls, Call.applyAt]
      | some b =>
        have hb : ¬ b = x := fun e => hqx (by rw [e])
        cases l0 <;> cases l <;>
          simp [TInputSavePoint.Holder.setCalls, Call.applyAt, Call.target, hb]
    | some a =>
      have ha : ¬ a = x := fun e => hpx' (by rw [e])
      cases q with
      | none =>
        cases l0 <;> cases l <;>
          simp [TInputSavePoint.Holder.setCalls, Call.applyAt, Call.target, ha]
      | some b =>
        have hb : ¬ b = x := fun e => hqx (by rw [e])
        by_cases hab : a = b
        · cases l0 <;> cases l <;>
            simp [TInputSavePoint.Holder.setCalls, Call.applyAt, Call.target, ha, hb, hab]
        · cases l0 <;> cases l <;>
            simp [TInputSavePoint.Holder.setCalls, Call.applyAt, Call.target, ha, hb, hab]
  · intro k hk
    exact State.holder_finish_of_ne _ hk
  · intro x s s1 hs hs1
    have hs1' : hp1.get x = some s1 := hs1
    rcases Call.runAll_get_some hrun hs with h3 | ⟨h3, -, -⟩
    · rw [h3] at hs1'
      cases hs1'
      rfl
    · rw [h3] at hs1'
      cases hs1'
  · simp only [State.step, State.member, hh]
    rfl
  · simp only [State.step, State.member, hh]
    rfl
  · simp only [State.step, State.member, hh]
    rfl
  · intro o ob hob
    simp only [State.step, hob]
    rfl
  · simp only [State.step, State.member, hh, TInputSavePoint.Holder.destroy]
    cases TInputSavePoint.Holder.reset { self := ho, heap := st.heap, calls := [] } with
    | none => rfl
    | some r => rfl
  · intro st2 hd k hk
    simp only [State.step, hh] at hd
    obtain ⟨x, -, rfl⟩ := Option.map_eq_some'.mp hd
    simp [State.holder, List.getD_eq_getElem?_getD, List.getElem?_set_ne (Ne.symm hk)]

/-- C19, at a concrete run: two holders made by `create`; the first is set to the save
point of the second, unlocked; the second holder is unchanged. -/
theorem C19_frame_of_set_witness :
    State.holder
      { heap := [some { m_refCount := 1, m_lockCount := 1, available := true },
          some { m_refCount := 1, m_lockCount := 1, available := false }]
        holders := [some { m_savePoint := some 0, m_lock := true },
          some { m_savePoint := some 1, m_lock := true }]
        log := [] } 0 = some { m_savePoint := some 0, m_lock := true } ∧
    State.step
      { heap := [some { m_refCount := 1, m_lockCount := 1, available := true },
          some { m_refCount := 1, m_lockCount := 1, available := false }]
        holders := [some { m_savePoint := some 0, m_lock := true },
          some { m_savePoint := some 1, m_lock := true }]
        log := [] } (Op.set 0 (some 1) false) =
      some { heap := [none, some { m_refCount := 2, m_lockCount := 1, available := false }]
             holders := [some { m_savePoint := some 1, m_lock := false },
               some { m_savePoint := some 1, m_lock := true }]
             log := [(0, Call.unlock 0), (0, Call.release 0), (0, Call.hold 1)] } ∧
    ∀ k, k ≠ 0 →
      State.holder
        { heap := [none, some { m_refCount := 2, m_lockCount := 1, available := false }]
          holders := [some { m_savePoint := some 1, m_lock := false },
            some { m_savePoint := some 1, m_lock := true }]
          log := [(0, Call.unlock 0), (0, Call.release 0), (0, Call.hold 1)] } k =
      State.holder
        { heap := [some { m_refCount := 1, m_lockCount := 1, available := true },
            some { m_refCount := 1, m_lockCount := 1, available := false }]
          holders := [some { m_savePoint := some 0, m_lock := true },
            some { m_savePoint := some 1, m_lock := true }]
          log := [] } k :=
  ⟨by decide, by decide,
    (C19_frame_of_set
      { heap := [some { m_refCount := 1, m_lockCount := 1, available := true },
          some { m_refCount := 1, m_lockCount := 1, available := false }]
        holders := [some { m_savePoint := some 0, m_lock := true },
          some { m_savePoint := some 1, m_lock := true }]
        log := [] }
      { heap := [none, some { m_refCount := 2, m_lockCount := 1, available := false }]
        holders := [some { m_savePoint := some 1, m_lock := false },
          some { m_savePoint := some 1, m_lock := true }]
        log := [(0, Call.unlock 0), (0, Call.release 0), (0, Call.hold 1)] }
      0 { m_savePoint := some 0, m_lock := true } (some 1) false (by decide) (by decide)).2.1⟩
